import Mathlib

/-
Verification of the core HMM inference engine of the zerone/jahmm
repository (files `hmm.c` and `jahmm.c`).

Doubles are modelled by the type `D`: a finite value carried by an exact
real number (rounding and overflow of IEEE-754 are not modelled), the two
infinities, and NaN.  The arithmetic on `D` follows the IEEE-754 special
value rules: NaN propagates through every operation, `0 * inf = NaN`,
`0 / 0 = NaN`, `x / 0 = ±inf` for finite nonzero `x`, `inf - inf = NaN`,
and every comparison involving NaN is false.  The C library functions
`exp`, `log`, `pow` and `lgamma` are modelled on finite arguments by the
corresponding Mathlib real functions (`Real.exp`, `Real.log`, `Real.rpow`,
`log |Real.Gamma|`) and on special arguments by their C99 special cases.

Matrices are modelled as functions of their indices, using the storage
convention of the C code: an (m,m) transition matrix `Q` is accessed as
`Q i j` for the entry `Q[i + j*m]` (the i -> j transition), and a row of
`m` emission values is a function `ℕ → D`.  In-place updates are modelled
by returning the new contents.
-/

set_option maxHeartbeats 1600000
set_option linter.unusedVariables false
set_option linter.unnecessarySeqFocus false

open scoped Classical

noncomputable section

namespace Zerone

/-- Model of an IEEE-754 double: a finite value (an exact real number),
positive infinity, negative infinity, or NaN. -/
inductive D where
  | fin (x : ℝ) : D
  | pinf : D
  | ninf : D
  | nan : D

namespace D

/-- IEEE addition on `D`. -/
def add : D → D → D
  | nan, _ => nan
  | _, nan => nan
  | fin x, fin y => fin (x + y)
  | pinf, ninf => nan
  | ninf, pinf => nan
  | pinf, _ => pinf
  | _, pinf => pinf
  | ninf, _ => ninf
  | _, ninf => ninf

/-- IEEE negation on `D`. -/
def neg : D → D
  | fin x => fin (-x)
  | pinf => ninf
  | ninf => pinf
  | nan => nan

/-- IEEE subtraction on `D`; `x - y` agrees with `x + (-y)`. -/
def sub (a b : D) : D := add a (neg b)

/-- IEEE multiplication on `D` (`0 * inf = NaN`). -/
def mul : D → D → D
  | nan, _ => nan
  | _, nan => nan
  | fin x, fin y => fin (x * y)
  | fin x, pinf => if 0 < x then pinf else if x < 0 then ninf else nan
  | pinf, fin x => if 0 < x then pinf else if x < 0 then ninf else nan
  | fin x, ninf => if 0 < x then ninf else if x < 0 then pinf else nan
  | ninf, fin x => if 0 < x then ninf else if x < 0 then pinf else nan
  | pinf, pinf => pinf
  | pinf, ninf => ninf
  | ninf, pinf => ninf
  | ninf, ninf => pinf

/-- IEEE division on `D` (`0/0 = NaN`, `x/0 = ±inf`, signed zeros are not
modelled so `x/0` uses the sign of `x` as with a positive zero divisor). -/
def div : D → D → D
  | nan, _ => nan
  | _, nan => nan
  | fin x, fin y =>
      if y = 0 then (if x = 0 then nan else if 0 < x then pinf else ninf)
      else fin (x / y)
  | fin _, pinf => fin 0
  | fin _, ninf => fin 0
  | pinf, fin y => if y < 0 then ninf else pinf
  | ninf, fin y => if y < 0 then pinf else ninf
  | pinf, pinf => nan
  | pinf, ninf => nan
  | ninf, pinf => nan
  | ninf, ninf => nan

instance : Add D := ⟨add⟩
instance : Neg D := ⟨neg⟩
instance : Sub D := ⟨sub⟩
instance : Mul D := ⟨mul⟩
instance : Div D := ⟨div⟩

/-- IEEE strict comparison `<` on `D`: any comparison with NaN is false. -/
def lt : D → D → Prop
  | fin x, fin y => x < y
  | nan, _ => False
  | _, nan => False
  | ninf, ninf => False
  | pinf, pinf => False
  | ninf, _ => True
  | _, pinf => True
  | pinf, _ => False
  | fin _, ninf => False

/-- C `fabs` on `D`. -/
def abs : D → D
  | fin x => fin |x|
  | pinf => pinf
  | ninf => pinf
  | nan => nan

/-- C `exp` on `D`. -/
def exp : D → D
  | fin x => fin (Real.exp x)
  | pinf => pinf
  | ninf => fin 0
  | nan => nan

/-- C `log` on `D`: `log 0 = -inf`, `log` of a negative number is NaN. -/
def log : D → D
  | fin x => if 0 < x then fin (Real.log x) else if x = 0 then ninf else nan
  | pinf => pinf
  | ninf => nan
  | nan => nan

/-- C99 `pow` on `D`.  On a positive finite base and finite exponent it is
the real power `Real.rpow`; a negative finite base requires an integer
exponent; the C99 special cases `pow(x, 0) = 1` and `pow(1, y) = 1` hold
even for NaN arguments. -/
def pow : D → D → D
  | fin x, fin y =>
      if y = 0 then fin 1
      else if x = 1 then fin 1
      else if 0 < x then fin (x ^ y)
      else if x = 0 then (if 0 < y then fin 0 else pinf)
      else if (⌊y⌋ : ℝ) = y then fin (x ^ ⌊y⌋) else nan
  | fin x, pinf => if x = 1 ∨ x = -1 then fin 1 else if -1 < x ∧ x < 1 then fin 0 else pinf
  | fin x, ninf => if x = 1 ∨ x = -1 then fin 1 else if -1 < x ∧ x < 1 then pinf else fin 0
  | fin x, nan => if x = 1 then fin 1 else nan
  | pinf, fin y => if y = 0 then fin 1 else if 0 < y then pinf else fin 0
  | ninf, fin y =>
      if y = 0 then fin 1
      else if 0 < y then (if (⌊y⌋ : ℝ) = y ∧ Odd ⌊y⌋ then ninf else pinf)
      else fin 0
  | pinf, pinf => pinf
  | pinf, ninf => fin 0
  | ninf, pinf => pinf
  | ninf, ninf => fin 0
  | pinf, nan => nan
  | ninf, nan => nan
  | nan, fin y => if y = 0 then fin 1 else nan
  | nan, pinf => nan
  | nan, ninf => nan
  | nan, nan => nan

/-- C `lgamma` on `D`: `log |Gamma x|`, with `+inf` at the poles. -/
def lgamma : D → D
  | fin x => if Real.Gamma x = 0 then pinf else fin (Real.log |Real.Gamma x|)
  | pinf => pinf
  | ninf => pinf
  | nan => nan

/-- The `sq` macro of the C sources: `sq(x) = x * x`. -/
def sq (x : D) : D := x * x

end D

open D

/-- Left-to-right accumulation `((0 + f 0) + f 1) + ... + f (n-1)`, the
order in which the C loops accumulate a sum into a variable initialized
to `0.0`. -/
def dSum (f : ℕ → D) : ℕ → D
  | 0 => fin 0
  | n + 1 => dSum f n + f n

/-- Left-to-right accumulation starting from a seed value `s`. -/
def dAccum (s : D) (f : ℕ → D) : ℕ → D
  | 0 => s
  | n + 1 => dAccum s f n + f n

/- Basic simp lemmas for the `D` arithmetic. -/

theorem fin_add_fin (x y : ℝ) : (fin x : D) + fin y = fin (x + y) := rfl

theorem fin_mul_fin (x y : ℝ) : (fin x : D) * fin y = fin (x * y) := rfl

theorem fin_sub_fin (x y : ℝ) : (fin x : D) - fin y = fin (x - y) := by
  show D.add (fin x) (D.neg (fin y)) = fin (x - y)
  simp [D.add, D.neg, sub_eq_add_neg]

theorem fin_div_fin (x y : ℝ) (hy : y ≠ 0) : (fin x : D) / fin y = fin (x / y) := by
  show D.div (fin x) (fin y) = fin (x / y)
  simp [D.div, hy]

theorem fin_div_zero_zero : (fin 0 : D) / fin 0 = nan := by
  show D.div (fin 0) (fin 0) = nan
  simp [D.div]

theorem lt_fin_fin (x y : ℝ) : D.lt (fin x) (fin y) ↔ x < y := Iff.rfl

theorem add_nan (a : D) : a + nan = nan := by cases a <;> rfl

theorem nan_add (a : D) : nan + a = nan := by cases a <;> rfl

theorem mul_nan (a : D) : a * nan = nan := by cases a <;> rfl

theorem nan_mul (a : D) : nan * a = nan := by cases a <;> rfl

theorem zero_add_d (a : D) : (fin 0 : D) + a = a := by
  cases a <;> try rfl
  case fin x => show fin (0 + x) = fin x; rw [zero_add]

theorem add_zero_d (a : D) : a + (fin 0 : D) = a := by
  cases a <;> try rfl
  case fin x => show fin (x + 0) = fin x; rw [add_zero]

theorem d_add_assoc (a b c : D) : a + b + c = a + (b + c) := by
  cases a <;> cases b <;> cases c <;> try rfl
  case fin.fin.fin x y z =>
    show fin (x + y + z) = fin (x + (y + z)); rw [add_assoc]

theorem fin_mul_nan_right (x : ℝ) : (fin x : D) * nan = nan := rfl

theorem d_mul_nan_any (a : D) : a * nan = nan := by cases a <;> rfl

theorem exp_fin (x : ℝ) : D.exp (fin x) = fin (Real.exp x) := rfl

theorem neg_fin (x : ℝ) : -(fin x : D) = fin (-x) := rfl

theorem log_fin_pos (x : ℝ) (hx : 0 < x) : D.log (fin x) = fin (Real.log x) := by
  simp only [D.log]; rw [if_pos hx]

/-- C `pow` on a positive finite base and finite exponent is the real
power. -/
theorem pow_fin_pos (x y : ℝ) (hx : 0 < x) : D.pow (fin x) (fin y) = fin (x ^ y) := by
  simp only [D.pow]
  by_cases hy : y = 0
  · subst hy
    rw [if_pos rfl, Real.rpow_zero]
  · rw [if_neg hy]
    by_cases hx1 : x = 1
    · subst hx1
      rw [if_pos rfl, Real.one_rpow]
    · rw [if_neg hx1, if_pos hx]

theorem dSum_succ (f : ℕ → D) (n : ℕ) : dSum f (n + 1) = dSum f n + f n := rfl

theorem dSum_zero (f : ℕ → D) : dSum f 0 = fin 0 := rfl

theorem d_lt_irrefl (a : D) : ¬ D.lt a a := by
  cases a <;> simp [D.lt]

theorem d_lt_trans (a b c : D) (h1 : D.lt a b) (h2 : D.lt b c) : D.lt a c := by
  cases a <;> cases b <;> cases c <;> simp_all [D.lt] <;> linarith

/-- A finite IEEE sum has finite addends. -/
theorem add_eq_fin (a b : D) (s : ℝ) (h : a + b = fin s) :
    (∃ x, a = fin x) ∧ (∃ y, b = fin y) := by
  cases a <;> cases b <;> simp_all [HAdd.hAdd, Add.add, D.add]

theorem fin_add_pinf (x : ℝ) : (fin x : D) + pinf = pinf := rfl

theorem pinf_add_fin (x : ℝ) : (pinf : D) + fin x = pinf := rfl

theorem fin_mul_pinf_pos (x : ℝ) (hx : 0 < x) : (fin x : D) * pinf = pinf := by
  show D.mul (fin x) pinf = pinf
  simp [D.mul, hx]

theorem fin_div_pinf (x : ℝ) : (fin x : D) / pinf = fin 0 := rfl

theorem pinf_div_pinf : (pinf : D) / pinf = nan := rfl

/-- A sum whose terms are all finite is the finite sum of the values. -/
theorem dSum_fin (f : ℕ → D) (g : ℕ → ℝ) (n : ℕ) (h : ∀ i < n, f i = fin (g i)) :
    dSum f n = fin (∑ i ∈ Finset.range n, g i) := by
  induction n with
  | zero => simp [dSum]
  | succ n ih =>
      rw [dSum_succ, ih (fun i hi => h i (Nat.lt_succ_of_lt hi)),
        h n (Nat.lt_succ_self n), fin_add_fin, Finset.sum_range_succ]

/-- A sum with a NaN term is NaN. -/
theorem dSum_nan (f : ℕ → D) (n i : ℕ) (hi : i < n) (h : f i = nan) :
    dSum f n = nan := by
  induction n with
  | zero => omega
  | succ n ih =>
      rw [dSum_succ]
      rcases Nat.lt_succ_iff_lt_or_eq.mp hi with h1 | h1
      · rw [ih h1, nan_add]
      · rw [h1] at h; rw [h, add_nan]

/-- A finite IEEE sum has finite terms, with real values summing to it. -/
theorem dSum_eq_fin_extract (f : ℕ → D) (n : ℕ) (s : ℝ) (h : dSum f n = fin s) :
    ∃ g : ℕ → ℝ, (∀ i, i < n → f i = fin (g i))
      ∧ ∑ i ∈ Finset.range n, g i = s := by
  induction n generalizing s with
  | zero =>
      refine ⟨fun _ => 0, fun i hi => absurd hi (Nat.not_lt_zero i), ?_⟩
      have : (fin 0 : D) = fin s := h
      have := D.fin.inj this
      simp [← this]
  | succ n ih =>
      rw [dSum_succ] at h
      obtain ⟨⟨x, hx⟩, ⟨y, hy⟩⟩ := add_eq_fin _ _ _ h
      rw [hx, hy, fin_add_fin] at h
      have hs : x + y = s := D.fin.inj h
      obtain ⟨g0, hg0, hg0s⟩ := ih x hx
      refine ⟨fun i => if i = n then y else g0 i, ?_, ?_⟩
      · intro i hi
        show f i = fin (if i = n then y else g0 i)
        rcases Nat.lt_succ_iff_lt_or_eq.mp hi with h1 | h1
        · rw [if_neg (Nat.ne_of_lt h1)]
          exact hg0 i h1
        · rw [h1, if_pos rfl]
          exact hy
      · rw [Finset.sum_range_succ, if_pos rfl]
        have : ∑ i ∈ Finset.range n, (if i = n then y else g0 i) = ∑ i ∈ Finset.range n, g0 i := by
          refine Finset.sum_congr rfl ?_
          intro i hi
          rw [if_neg (Nat.ne_of_lt (Finset.mem_range.mp hi))]
        rw [this, hg0s, hs]

/-- Normalization: dividing finite values by their positive finite sum
yields a vector summing to one. -/
theorem dSum_div_self (av : ℕ → D) (m : ℕ) (g : ℕ → ℝ)
    (h : ∀ j, j < m → av j = fin (g j)) (cv : ℝ)
    (hcv : cv = ∑ j ∈ Finset.range m, g j) (hpos : 0 < cv) (c : D) (hc : c = fin cv) :
    dSum (fun j => av j / c) m = fin 1 := by
  have hne : cv ≠ 0 := ne_of_gt hpos
  have := dSum_fin (fun j => av j / c) (fun j => g j / cv) m (by
    intro j hj
    show av j / c = fin (g j / cv)
    rw [h j hj, hc, fin_div_fin _ _ hne])
  rw [this, ← Finset.sum_div, ← hcv, div_self hne]

/-
Embedding of hmm.c: fwd, bwd, fwdb, block_fwdb, viterbi.
-/

/-- One-step prediction of the forward pass:
`tmp[j] = sum_i a[i] * Q[i + j*m]`. -/
def fwdTmp (m : ℕ) (Q : ℕ → ℕ → D) (a : ℕ → D) : ℕ → D :=
  fun j => dSum (fun i => a i * Q i j) m

/-- The scan `w = 0; for (j = 1; j < m; j++) if (prob[j] > prob[w]) w = j;`
of the log-space branch of `fwd` (first maximum wins). -/
def argmaxW (row : ℕ → D) : ℕ → ℕ
  | 0 => 0
  | 1 => 0
  | n + 2 =>
      let w := argmaxW row (n + 1)
      if D.lt (row w) (row (n + 1)) then n + 1 else w

/-- Result of one position of the forward pass: the new alpha vector, the
row written back into `prob`, and the contribution added to the
log-likelihood at this position. -/
structure FwdStep where
  a : ℕ → D
  row : ℕ → D
  inc : D

/-- One position of the C function `fwd`, acting on the prediction `tmp`
and the emission row `row`: the NaN scan, then the log-space branch
(discriminated by `row 0 < 0`, which adds `row w` to the log-likelihood
before testing `c`), then the linear branch, each falling back to the
missing-observation treatment when `c` is not positive. -/
def fwdStep (m : ℕ) (row tmp : ℕ → D) : FwdStep :=
  if ∃ j < m, row j = nan then ⟨tmp, tmp, fin 0⟩
  else if D.lt (row 0) (fin 0) then
    if D.lt (fin 0) (dSum (fun j => tmp j * D.exp (row j - row (argmaxW row m))) m) then
      ⟨fun j => (tmp j * D.exp (row j - row (argmaxW row m)))
          / dSum (fun j2 => tmp j2 * D.exp (row j2 - row (argmaxW row m))) m,
        fun j => (tmp j * D.exp (row j - row (argmaxW row m)))
          / dSum (fun j2 => tmp j2 * D.exp (row j2 - row (argmaxW row m))) m,
        row (argmaxW row m)
          + D.log (dSum (fun j2 => tmp j2 * D.exp (row j2 - row (argmaxW row m))) m)⟩
    else ⟨tmp, tmp, row (argmaxW row m)⟩
  else
    if D.lt (fin 0) (dSum (fun j => tmp j * row j) m) then
      ⟨fun j => (tmp j * row j) / dSum (fun j2 => tmp j2 * row j2) m,
        fun j => (tmp j * row j) / dSum (fun j2 => tmp j2 * row j2) m,
        D.log (dSum (fun j2 => tmp j2 * row j2) m)⟩
    else ⟨tmp, tmp, fin 0⟩

def fwdAux (m : ℕ) (Q : ℕ → ℕ → D) : (ℕ → D) → D → List (ℕ → D) → List (ℕ → D) × D
  | _, ll, [] => ([], ll)
  | tmp, ll, row :: rest =>
      let s := fwdStep m row tmp
      let r := fwdAux m Q (fwdTmp m Q s.a) (ll + s.inc) rest
      (s.row :: r.1, r.2)

/-- The C function `fwd`: overwrites the emission rows with the normalized
forward alphas and returns the block log-likelihood.  The first position
uses `init` as prediction, later ones `fwdTmp`. -/
def fwd (m : ℕ) (Q : ℕ → ℕ → D) (init : ℕ → D) (rows : List (ℕ → D)) :
    List (ℕ → D) × D :=
  fwdAux m Q init (fin 0) rows

/-- Denominator `x = sum_i alpha[i + k*m] * Q[i + j*m]` of the reverse
kernel of `bwd` at target state `j`. -/
def rkDen (m : ℕ) (Q : ℕ → ℕ → D) (ak : ℕ → D) (j : ℕ) : D :=
  dSum (fun i => ak i * Q i j) m

/-- Reverse kernel of `bwd` in the storage convention of the C code:
`Rker m Q ak j i` is `R[j + i*m] = alpha[i] * Q[i + j*m] / x_j`. -/
def Rker (m : ℕ) (Q : ℕ → ℕ → D) (ak : ℕ → D) (j i : ℕ) : D :=
  (ak i * Q i j) / rkDen m Q ak j

/-- Recursion of `bwd` from position `k` (alpha row `ak`) to the end of
the block: returns `phi` at position `k`, the list of `phi` rows from `k`
on, and the `T` matrix accumulated over positions `>= k` (in the same
order as the C loop, which runs `k` from `n-2` down to `0`). -/
def bwdGo (m : ℕ) (Q : ℕ → ℕ → D) (ak : ℕ → D) :
    List (ℕ → D) → (ℕ → D) × List (ℕ → D) × (ℕ → ℕ → D)
  | [] => (ak, [ak], fun _ _ => fin 0)
  | anext :: rest =>
      let r := bwdGo m Q anext rest
      let phi1 := r.1
      let phi0 := fun j => dSum (fun i => phi1 i * Rker m Q ak i j) m
      (phi0, phi0 :: r.2.1, fun j i => r.2.2 j i + phi1 i * Rker m Q ak i j)

/-- The C function `bwd`: from the alpha rows produce the smoothed
posteriors `phi` and the summed conditional transitions `T`. -/
def bwd (m : ℕ) (Q : ℕ → ℕ → D) : List (ℕ → D) → List (ℕ → D) × (ℕ → ℕ → D)
  | [] => ([], fun _ _ => fin 0)
  | a0 :: rest =>
      let r := bwdGo m Q a0 rest
      (r.2.1, r.2.2)

/-- Output of `fwdb` / `block_fwdb`. -/
structure FwdbOut where
  alpha : List (ℕ → D)
  phi : List (ℕ → D)
  T : ℕ → ℕ → D
  ll : D

/-- The C function `fwdb`: forward pass, then backward pass on the
overwritten alphas. -/
def fwdb (m : ℕ) (Q : ℕ → ℕ → D) (init : ℕ → D) (rows : List (ℕ → D)) :
    FwdbOut :=
  let f := fwd m Q init rows
  let b := bwd m Q f.1
  ⟨f.1, b.1, b.2, f.2⟩

/-- Loop of `block_fwdb` over the blocks, with the accumulators
`sumtrans` (initialized to zero) and `loglik` (initialized to zero)
threaded exactly as in the C code. -/
def blockFwdbGo (m : ℕ) (Q : ℕ → ℕ → D) (init : ℕ → D) :
    List ℕ → List (ℕ → D) → (ℕ → ℕ → D) → D → FwdbOut
  | [], _, st, ll => ⟨[], [], st, ll⟩
  | s :: ss, rows, st, ll =>
      let r := fwdb m Q init (rows.take s)
      let rest := blockFwdbGo m Q init ss (rows.drop s)
        (fun j i => st j i + r.T j i) (ll + r.ll)
      ⟨r.alpha ++ rest.alpha, r.phi ++ rest.phi, rest.T, rest.ll⟩

/-- The C function `block_fwdb`: runs `fwdb` on each block (resetting the
prediction to `init` at each block start), sums the per-block `T`
matrices into `sumtrans` and the per-block log-likelihoods into
`loglik`. -/
def blockFwdb (m : ℕ) (Q : ℕ → ℕ → D) (init : ℕ → D) (sizes : List ℕ)
    (rows : List (ℕ → D)) : FwdbOut :=
  blockFwdbGo m Q init sizes rows (fun _ _ => fin 0) (fin 0)

/-- Splitting of the emission rows into blocks of the given sizes, as done
by the `prob + offset` pointer arithmetic of `block_fwdb`. -/
def chunks : List ℕ → List (ℕ → D) → List (List (ℕ → D))
  | [], _ => []
  | s :: ss, rows => rows.take s :: chunks ss (rows.drop s)

/-- Inner maximization of the Viterbi recursion at target state `j`:
maximum over `i < m` of `oldmax[i] + log_Q[i + j*m]` together with its
argmax; ties keep the first (lowest) index, as the strict `>` of the C
loop does. -/
def vitMax (logQ : ℕ → ℕ → D) (oldmax : ℕ → D) (j : ℕ) : ℕ → D × ℕ
  | 0 => (oldmax 0 + logQ 0 j, 0)
  | 1 => (oldmax 0 + logQ 0 j, 0)
  | n + 2 =>
      let p := vitMax logQ oldmax j (n + 1)
      let tmp := oldmax (n + 1) + logQ (n + 1) j
      if D.lt p.1 tmp then (tmp, n + 1) else p

/-- Main loop of `viterbi` over positions `k = 1 .. n-1`: from the current
`newmax` scores and the remaining emission rows, return the final
`newmax` scores and the backpointer rows (in position order). -/
def vitGo (m : ℕ) (logQ : ℕ → ℕ → D) :
    (ℕ → D) → List (ℕ → D) → (ℕ → D) × List (ℕ → ℕ)
  | cur, [] => (cur, [])
  | cur, row :: rest =>
      let am := fun j => (vitMax logQ cur j m).2
      let nm := fun j => (vitMax logQ cur j m).1 + row j
      let r := vitGo m logQ nm rest
      (r.1, am :: r.2)

/-- Final-state selection of `viterbi`, exactly as written in the C code:
`final_state = 0; for (j = 1; j < m; j++) if (newmax[j] > newmax[0])
final_state = j;` — note that every `j` is compared against `newmax[0]`,
so the last `j` beating slot `0` wins. -/
def finalState (newmax : ℕ → D) : ℕ → ℕ
  | 0 => 0
  | 1 => 0
  | n + 2 =>
      if D.lt (newmax 0) (newmax (n + 1)) then n + 1
      else finalState newmax (n + 1)

/-- Backtracking loop of `viterbi`: `path[k] = argmax[path[k+1] + (k+1)*m]`,
consuming the backpointer rows from the last position down. -/
def traceback (s : ℕ) : List (ℕ → ℕ) → List ℕ
  | [] => [s]
  | am :: rest => traceback (am s) rest ++ [s]

/-- The C function `viterbi` on one block: log-space max-product decoding.
Returns the decoded path as a list of states, one per position. -/
def viterbi (m : ℕ) (logQ : ℕ → ℕ → D) (logi : ℕ → D) :
    List (ℕ → D) → List ℕ
  | [] => []
  | row0 :: rest =>
      let r := vitGo m logQ (fun j => logi j + row0 j) rest
      traceback (finalState r.1 m) r.2.reverse

/-
Embedding of jahmm.c: update_trans, eval_bw_f, eval_bw_dfdp0, zinm_prob,
and the body of one Baum-Welch iteration of bw_zinm.
-/

/-- The C function `update_trans`: overwrites the `m x m` block of `Q`
with the row-normalized `trans` matrix (`Q[i+j*m] = trans[i+j*m] / sum`,
where `sum` is the row sum over `j`); entries outside the block are the
previous `Q`.  There is no guard against a zero row sum. -/
def updateTrans (m : ℕ) (Q trans : ℕ → ℕ → D) : ℕ → ℕ → D :=
  fun i j =>
    if i < m ∧ j < m then trans i j / dSum (fun jj => trans i jj) m
    else Q i j

/-- The helper `is_invalid` of `zinm_prob`: some observation of row `k`
is negative (the NA encoding). -/
def isInvalid (y : ℕ → ℕ → ℤ) (k r : ℕ) : Prop := ∃ j < r, y k j < 0

/-- The helper `is_all_zero` of `zinm_prob`. -/
def isAllZero (y : ℕ → ℕ → ℤ) (k r : ℕ) : Prop := ∀ j < r, y k j = 0

/-- Row sum `sump` of row `i` of the parameter matrix `p` (which has
`r + 1` columns, `p i j` standing for `p[j + i*(r+1)]`). -/
def sump (r : ℕ) (p : ℕ → ℕ → D) (i : ℕ) : D := dSum (fun j => p i j) (r + 1)

/-- Renormalized log parameters of `zinm_prob`:
`logp[j+i*(r+1)] = log(p[j+i*(r+1)] / sump)`. -/
def logp (r : ℕ) (p : ℕ → ℕ → D) (i j : ℕ) : D := D.log (p i j / sump r p i)

/-- Zero-inflation branch of `zinm_prob` for an all-zero row:
`pem[i+k*m] = log(pi*exp(a*logp[0+i*(r+1)]) + (1.0-pi))`. -/
def zeroRow (r : ℕ) (a pw : D) (p : ℕ → ℕ → D) (i : ℕ) : D :=
  D.log (pw * D.exp (a * logp r p i 0) + (fin 1 - pw))

/-- Standard branch of `zinm_prob`:
`pem[i+k*m] = a*logp[0] + sum_j y[j+k*r]*logp[j+1]`, accumulated in the
order of the C loop. -/
def stdRow (r : ℕ) (y : ℕ → ℕ → ℤ) (a : D) (p : ℕ → ℕ → D) (k i : ℕ) : D :=
  dAccum (a * logp r p i 0)
    (fun j => fin ((y k j : ℝ)) * logp r p i (j + 1)) r

/-- Constant term of `zinm_prob` (computed when the fourth bit of `otype`
is set): `-lgamma(a) - sum_j lgamma(y_j + 1) + lgamma(a + sum_j y_j)`,
with the accumulation order of the C loop. -/
def cterm (r : ℕ) (y : ℕ → ℕ → ℤ) (a : D) (k : ℕ) : D :=
  dAccum (D.neg (D.lgamma a))
      (fun j => D.neg (D.lgamma (fin ((y k j : ℝ) + 1)))) r
    + D.lgamma (dAccum a (fun j => fin ((y k j : ℝ))) r)

/-- Log-space emission of a canonical row: the all-zero branch or the
standard branch of `zinm_prob`. -/
def rowBase (r : ℕ) (y : ℕ → ℕ → ℤ) (a pw : D) (p : ℕ → ℕ → D) (k i : ℕ) : D :=
  if isAllZero y k r then zeroRow r a pw p i else stdRow r y a p k i

/-- The emission with the optional constant term (fourth bit of
`otype`). -/
def rowWC (r : ℕ) (y : ℕ → ℕ → ℤ) (a pw : D) (p : ℕ → ℕ → D)
    (otype k i : ℕ) : D :=
  if (otype >>> 3) % 2 = 1 then rowBase r y a pw p k i + cterm r y a k
  else rowBase r y a pw p k i

/-- The emission row of `zinm_prob` for a canonical (first occurrence)
position `k`: the NA test, then the all-zero or standard branch, the
optional constant term, and the conversion to linear space ruled by
`output_type` (`otype % 4`: `0` linear-with-log-fallback, `1` log,
`2` linear) with the underflow test `sum > 0`. -/
def computeRow (m r : ℕ) (y : ℕ → ℕ → ℤ) (a pw : D) (p : ℕ → ℕ → D)
    (otype : ℕ) (k : ℕ) : ℕ → D :=
  if isInvalid y k r then fun _ => nan
  else if otype % 4 = 1 then fun i => rowWC r y a pw p otype k i
  else if D.lt (fin 0) (dSum (fun i => D.exp (rowWC r y a pw p otype k i)) m)
      ∨ otype % 4 = 2 then
    fun i => D.exp (rowWC r y a pw p otype k i)
  else fun i => rowWC r y a pw p otype k i

/-- Overwriting of row `k` of the emission matrix. -/
def writeRow (s : ℕ → ℕ → D) (k : ℕ) (row : ℕ → D) : ℕ → ℕ → D :=
  fun k2 => if k2 = k then row else s k2

/-- The row written by `zinm_prob` at position `k`: a verbatim copy of
row `index[k]` of the current emission matrix when `index[k] < k`, the
computed row otherwise. -/
def zinmRowAt (m r : ℕ) (y : ℕ → ℕ → ℤ) (a pw : D) (p : ℕ → ℕ → D)
    (otype : ℕ) (index : ℕ → ℕ) (s : ℕ → ℕ → D) (k : ℕ) : ℕ → D :=
  if index k < k then s (index k) else computeRow m r y a pw p otype k

/-- Main loop of `zinm_prob` over the positions, threading the emission
matrix state. -/
def zinmGo (m r : ℕ) (y : ℕ → ℕ → ℤ) (a pw : D) (p : ℕ → ℕ → D)
    (otype : ℕ) (index : ℕ → ℕ) : List ℕ → (ℕ → ℕ → D) → (ℕ → ℕ → D)
  | [], s => s
  | k :: ks, s =>
      zinmGo m r y a pw p otype index ks
        (writeRow s k (zinmRowAt m r y a pw p otype index s k))

/-- The C function `zinm_prob`.  Returns `none` when the function aborts
before writing any emission row: a negative entry of `p` ("error: 'p'
negative"), or `otype & 3 == 3` (an out-of-bounds read of `cases[3]` in
the C code, undefined behaviour).  Otherwise returns the emission matrix
obtained from `pem0` by writing all `n` rows. -/
def zinmProb (m r n : ℕ) (y : ℕ → ℕ → ℤ) (a pw : D) (p : ℕ → ℕ → D)
    (index : ℕ → ℕ) (otype : ℕ) (pem0 : ℕ → ℕ → D) : Option (ℕ → ℕ → D) :=
  if otype % 4 = 3 then none
  else if ∃ i < m, ∃ j < r + 1, D.lt (p i j) (fin 0) then none
  else some (zinmGo m r y a pw p otype index (List.range n) pem0)

/-- The C function `eval_bw_f` (jahmm.c), with the locals `term1` and
`term2` inlined:
`p0 + E/(term1 + term2) - 1.0/C` where `term1 = (D + a*A)/p0` and
`term2 = B*pi*a*pow(p0,a-1) / (pi*pow(p0,a)+1-pi)`. -/
def evalBwF (a pw p0 A B C Dv E : D) : D :=
  p0 + E / ((Dv + a * A) / p0
      + B * pw * a * D.pow p0 (a - fin 1) / (pw * D.pow p0 a + fin 1 - pw))
    - fin 1 / C

/-- The C function `eval_bw_dfdp0` (jahmm.c), with the locals `term1`
to `term4` and `subterm3a`, `subterm3b` inlined:
`1 - E/sq(term1 + term2) * (term3 - term4)` where
`term3 = B*(subterm3a - subterm3b)/sq(pi*pow(p0,a)+1-pi)`,
`subterm3a = (1-pi)*pi*a*(a-1)*pow(p0,a-2)`,
`subterm3b = sq(pi)*a*pow(p0,2*a-2)` and `term4 = (D + a*A)/sq(p0)`. -/
def evalBwDfdp0 (a pw p0 A B C Dv E : D) : D :=
  fin 1 - E / D.sq ((Dv + a * A) / p0
      + B * pw * a * D.pow p0 (a - fin 1) / (pw * D.pow p0 a + fin 1 - pw))
    * (B * ((fin 1 - pw) * pw * a * (a - fin 1) * D.pow p0 (a - fin 2)
          - D.sq pw * a * D.pow p0 (fin 2 * a - fin 2))
        / D.sq (pw * D.pow p0 a + fin 1 - pw)
      - (Dv + a * A) / D.sq p0)

/-- Fuel for the two unbounded bracketing `while` loops of `bw_zinm`;
ample for every run analysed here, and irrelevant once the loop exit
condition is reached. -/
def bracketFuel : ℕ := 10000

/-- The doubling loop `while (eval_bw_f(...) < 0) p0 *= 2;`. -/
def bracketUp (f : D → D) : ℕ → D → D
  | 0, p0 => p0
  | fuel + 1, p0 =>
      if D.lt (f p0) (fin 0) then bracketUp f fuel (p0 * fin 2) else p0

/-- The halving loop `while (eval_bw_f(...) > 0) p0 /= 2;`. -/
def bracketDown (f : D → D) : ℕ → D → D
  | 0, p0 => p0
  | fuel + 1, p0 =>
      if D.lt (fin 0) (f p0) then bracketDown f fuel (p0 / fin 2) else p0

/-- Bracketing phase of the emission update of `bw_zinm`: starting from
`p0 = 0.5`, double or halve until `f` changes sign.  Returns
`(p0_lo, p0_hi, p0)` where `p0` is the exit value of the loop variable. -/
def findBracket (f : D → D) : D × D × D :=
  if D.lt (f (fin (1/2))) (fin 0) then
    let p := bracketUp f bracketFuel (fin 1)
    (p / fin 2, p, p)
  else
    let p := bracketDown f bracketFuel (fin (1/4))
    (p, p * fin 2, p)

/-- State of the Newton loop of `bw_zinm`: the bracket `[lo, hi]`, the
proposal `new_p0`, the loop variable `p0`, and whether the `break` has
fired. -/
structure NewtonState where
  lo : D
  hi : D
  np : D
  cur : D
  done : Bool

/-- Clamping of the Newton proposal `new_p0` to the bracket:
`p0 = (new_p0 < p0_lo || new_p0 > p0_hi) ? (p0_lo + p0_hi)/2 : new_p0`. -/
def newtonP0 (lo hi np : D) : D :=
  if D.lt np lo ∨ D.lt hi np then (lo + hi) / fin 2 else np

/-- One iteration of the Newton loop of `bw_zinm`: clamp the proposal to
the bracket (falling back to the midpoint), evaluate `f`, shrink the
bracket by sign (`f > 0` moves `p0_hi`, otherwise `p0_lo`), `break` when
the bracket is below `TOLERANCE = 1e-6`, otherwise take a Newton step.
A no-op after the `break`. -/
def newtonIter (f df : D → D) : NewtonState → NewtonState
  | ⟨lo, hi, np, cur, done⟩ =>
      if done then ⟨lo, hi, np, cur, done⟩
      else if D.lt (fin 0) (f (newtonP0 lo hi np)) then
        if D.lt (newtonP0 lo hi np - lo) (fin (1/1000000)) then
          ⟨lo, newtonP0 lo hi np, np, newtonP0 lo hi np, true⟩
        else ⟨lo, newtonP0 lo hi np,
          newtonP0 lo hi np - f (newtonP0 lo hi np) / df (newtonP0 lo hi np),
          newtonP0 lo hi np, false⟩
      else
        if D.lt (hi - newtonP0 lo hi np) (fin (1/1000000)) then
          ⟨newtonP0 lo hi np, hi, np, newtonP0 lo hi np, true⟩
        else ⟨newtonP0 lo hi np, hi,
          newtonP0 lo hi np - f (newtonP0 lo hi np) / df (newtonP0 lo hi np),
          newtonP0 lo hi np, false⟩

/-- `JAHMM_MAXITER` iterations of the Newton loop. -/
def newtonRun (f df : D → D) : ℕ → NewtonState → NewtonState
  | 0, s => s
  | fuel + 1, s => newtonRun f df fuel (newtonIter f df s)

theorem bracketUp_step (f : D → D) (fuel : ℕ) (p0 : D)
    (h : D.lt (f p0) (fin 0)) :
    bracketUp f (fuel + 1) p0 = bracketUp f fuel (p0 * fin 2) := by
  show (if D.lt (f p0) (fin 0) then bracketUp f fuel (p0 * fin 2) else p0) = _
  rw [if_pos h]

theorem bracketUp_stop (f : D → D) (fuel : ℕ) (p0 : D)
    (h : ¬ D.lt (f p0) (fin 0)) :
    bracketUp f (fuel + 1) p0 = p0 := by
  show (if D.lt (f p0) (fin 0) then bracketUp f fuel (p0 * fin 2) else p0) = _
  rw [if_neg h]

theorem bracketDown_step (f : D → D) (fuel : ℕ) (p0 : D)
    (h : D.lt (fin 0) (f p0)) :
    bracketDown f (fuel + 1) p0 = bracketDown f fuel (p0 / fin 2) := by
  show (if D.lt (fin 0) (f p0) then bracketDown f fuel (p0 / fin 2) else p0) = _
  rw [if_pos h]

theorem bracketDown_stop (f : D → D) (fuel : ℕ) (p0 : D)
    (h : ¬ D.lt (fin 0) (f p0)) :
    bracketDown f (fuel + 1) p0 = p0 := by
  show (if D.lt (fin 0) (f p0) then bracketDown f fuel (p0 / fin 2) else p0) = _
  rw [if_neg h]

theorem findBracket_neg (f : D → D) (h : D.lt (f (fin (1/2))) (fin 0)) :
    findBracket f = (bracketUp f bracketFuel (fin 1) / fin 2,
      bracketUp f bracketFuel (fin 1), bracketUp f bracketFuel (fin 1)) := by
  unfold findBracket
  rw [if_pos h]

theorem findBracket_pos (f : D → D) (h : ¬ D.lt (f (fin (1/2))) (fin 0)) :
    findBracket f = (bracketDown f bracketFuel (fin (1/4)),
      bracketDown f bracketFuel (fin (1/4)) * fin 2,
      bracketDown f bracketFuel (fin (1/4))) := by
  unfold findBracket
  rw [if_neg h]

theorem newtonRun_step (f df : D → D) (fuel : ℕ) (s : NewtonState) :
    newtonRun f df (fuel + 1) s = newtonRun f df fuel (newtonIter f df s) := rfl

theorem newtonRun_fix (f df : D → D) (s : NewtonState)
    (hfix : newtonIter f df s = s) :
    ∀ fuel, newtonRun f df fuel s = s := by
  intro fuel
  induction fuel with
  | zero => rfl
  | succ t ih => rw [newtonRun_step, hfix, ih]

theorem newtonP0_in (lo hi np : D) (h : ¬ (D.lt np lo ∨ D.lt hi np)) :
    newtonP0 lo hi np = np := by
  unfold newtonP0
  rw [if_neg h]

/-- Evaluation of one Newton iteration in the `f <= 0` no-break case:
the lower bracket moves to `p0` and a Newton step is proposed. -/
theorem newtonIter_eval_le (f df : D → D) (lo hi np cur p0 : D)
    (hp0 : newtonP0 lo hi np = p0)
    (hf : ¬ D.lt (fin 0) (f p0))
    (hbr : ¬ D.lt (hi - p0) (fin (1/1000000))) :
    newtonIter f df ⟨lo, hi, np, cur, false⟩
      = ⟨p0, hi, p0 - f p0 / df p0, p0, false⟩ := by
  have e : newtonIter f df ⟨lo, hi, np, cur, false⟩
      = if D.lt (fin 0) (f (newtonP0 lo hi np)) then
          (if D.lt (newtonP0 lo hi np - lo) (fin (1/1000000)) then
            (⟨lo, newtonP0 lo hi np, np, newtonP0 lo hi np, true⟩ : NewtonState)
          else ⟨lo, newtonP0 lo hi np,
            newtonP0 lo hi np - f (newtonP0 lo hi np) / df (newtonP0 lo hi np),
            newtonP0 lo hi np, false⟩)
        else if D.lt (hi - newtonP0 lo hi np) (fin (1/1000000)) then
          ⟨newtonP0 lo hi np, hi, np, newtonP0 lo hi np, true⟩
        else ⟨newtonP0 lo hi np, hi,
          newtonP0 lo hi np - f (newtonP0 lo hi np) / df (newtonP0 lo hi np),
          newtonP0 lo hi np, false⟩ := rfl
  rw [e, hp0, if_neg hf, if_neg hbr]

/-- Bucketed sums of the emission update of `bw_zinm` for one state. -/
structure EmisConsts where
  A : D
  B : D
  Dv : D
  ystar : ℕ → D

/-- One position `k` of the bucketing loop of the emission update:
positions with `index[k] == i0` feed `B`, the others feed `A`, `D` and
`ystar[1..r-1]`. -/
def emisStep (r : ℕ) (y : ℕ → ℕ → ℤ) (index : ℕ → ℕ) (i0 : Option ℕ)
    (phi : ℕ → ℕ → D) (i : ℕ) (c : EmisConsts) (k : ℕ) : EmisConsts :=
  if i0 = some (index k) then
    { c with B := c.B + phi k i }
  else
    { A := c.A + phi k i
      B := c.B
      Dv := c.Dv + phi k i * fin ((y k 0 : ℝ))
      ystar := fun j =>
        if 1 ≤ j ∧ j < r then c.ystar j + phi k i * fin ((y k j : ℝ))
        else c.ystar j }

/-- The bucketed sums `A`, `B`, `D`, `ystar` for state `i`. -/
def emisConsts (r n : ℕ) (y : ℕ → ℕ → ℤ) (index : ℕ → ℕ) (i0 : Option ℕ)
    (phi : ℕ → ℕ → D) (i : ℕ) : EmisConsts :=
  (List.range n).foldl (emisStep r y index i0 phi i)
    ⟨fin 0, fin 0, fin 0, fun _ => fin 0⟩

/-- The sum `E = sum_{j=1}^{r-1} ystar[j]`. -/
def emisE (r : ℕ) (ystar : ℕ → D) : D := dSum (fun j => ystar (j + 1)) (r - 1)

/-- The scalar function `f` of the emission update of `bw_zinm` for
state `i`: `eval_bw_f` applied to the bucketed sums of that state, with
`C = 1 + R`. -/
def bwF (r n : ℕ) (y : ℕ → ℕ → ℤ) (index : ℕ → ℕ) (i0 : Option ℕ)
    (a pw R : D) (phi : ℕ → ℕ → D) (i : ℕ) : D → D :=
  fun p0 => evalBwF a pw p0 (emisConsts r n y index i0 phi i).A
    (emisConsts r n y index i0 phi i).B (fin 1 + R)
    (emisConsts r n y index i0 phi i).Dv
    (emisE r (emisConsts r n y index i0 phi i).ystar)

/-- The derivative `eval_bw_dfdp0` for state `i`. -/
def bwDf (r n : ℕ) (y : ℕ → ℕ → ℤ) (index : ℕ → ℕ) (i0 : Option ℕ)
    (a pw R : D) (phi : ℕ → ℕ → D) (i : ℕ) : D → D :=
  fun p0 => evalBwDfdp0 a pw p0 (emisConsts r n y index i0 phi i).A
    (emisConsts r n y index i0 phi i).B (fin 1 + R)
    (emisConsts r n y index i0 phi i).Dv
    (emisE r (emisConsts r n y index i0 phi i).ystar)

/-- The bracket `(p0_lo, p0_hi, p0)` found for state `i`. -/
def bwBracket (r n : ℕ) (y : ℕ → ℕ → ℤ) (index : ℕ → ℕ) (i0 : Option ℕ)
    (a pw R : D) (phi : ℕ → ℕ → D) (i : ℕ) : D × D × D :=
  findBracket (bwF r n y index i0 a pw R phi i)

/-- The value of `p0` after the Newton loop (`JAHMM_MAXITER = 25`
iterations starting from the midpoint proposal). -/
def bwP0 (r n : ℕ) (y : ℕ → ℕ → ℤ) (index : ℕ → ℕ) (i0 : Option ℕ)
    (a pw R : D) (phi : ℕ → ℕ → D) (i : ℕ) : D :=
  (newtonRun (bwF r n y index i0 a pw R phi i) (bwDf r n y index i0 a pw R phi i) 25
    ⟨(bwBracket r n y index i0 a pw R phi i).1,
      (bwBracket r n y index i0 a pw R phi i).2.1,
      ((bwBracket r n y index i0 a pw R phi i).1
        + (bwBracket r n y index i0 a pw R phi i).2.1) / fin 2,
      (bwBracket r n y index i0 a pw R phi i).2.2, false⟩).cur

/-- The normalization constant of the emission update:
`normconst = (term1 + term2) / C` evaluated at the found `p0`. -/
def bwNormconst (r n : ℕ) (y : ℕ → ℕ → ℤ) (index : ℕ → ℕ) (i0 : Option ℕ)
    (a pw R : D) (phi : ℕ → ℕ → D) (i : ℕ) : D :=
  (((emisConsts r n y index i0 phi i).Dv + a * (emisConsts r n y index i0 phi i).A)
      / bwP0 r n y index i0 a pw R phi i
    + (emisConsts r n y index i0 phi i).B * pw * a
        * D.pow (bwP0 r n y index i0 a pw R phi i) (a - fin 1)
      / (pw * D.pow (bwP0 r n y index i0 a pw R phi i) a + fin 1 - pw))
  / (fin 1 + R)

/-- Emission update of `bw_zinm` for one state `i`: bucketed sums,
bracketing with the failure test `p0_lo > 1.0 || p0_hi < 0.0` of the C
code ("cannot complete Baum-Welch algorithm", returning `none`), the
Newton loop, and the new row of `p`: slot `0` is `p0`, slot `1` is
`p0 * R`, slots `2..r` are `ystar[j-1] / normconst`.  Slots beyond `r`
are not written by the C code (the model leaves `fin 0`).
`bwRow` is the new row written into `newp` for state `i`. -/
def bwRow (r n : ℕ) (y : ℕ → ℕ → ℤ) (index : ℕ → ℕ) (i0 : Option ℕ)
    (a pw R : D) (phi : ℕ → ℕ → D) (i j : ℕ) : D :=
  if j = 0 then bwP0 r n y index i0 a pw R phi i
  else if j = 1 then bwP0 r n y index i0 a pw R phi i * R
  else if j ≤ r then (emisConsts r n y index i0 phi i).ystar (j - 1)
    / bwNormconst r n y index i0 a pw R phi i
  else fin 0

def bwEmisUpdate (r n : ℕ) (y : ℕ → ℕ → ℤ) (index : ℕ → ℕ) (i0 : Option ℕ)
    (a pw R : D) (phi : ℕ → ℕ → D) (i : ℕ) : Option (D × (ℕ → D)) :=
  if D.lt (fin 1) (bwBracket r n y index i0 a pw R phi i).1
      ∨ D.lt (bwBracket r n y index i0 a pw R phi i).2.1 (fin 0) then none
  else
    some (bwP0 r n y index i0 a pw R phi i, bwRow r n y index i0 a pw R phi i)

/-- The per-state loop of the emission update, aborting at the first
bracketing failure and otherwise collecting the rows of `newp`. -/
def bwStates (r n : ℕ) (y : ℕ → ℕ → ℤ) (index : ℕ → ℕ) (i0 : Option ℕ)
    (a pw R : D) (phi : ℕ → ℕ → D) :
    List ℕ → (ℕ → ℕ → D) → Option (ℕ → ℕ → D)
  | [], newp => some newp
  | i :: rest, newp =>
      match bwEmisUpdate r n y index i0 a pw R phi i with
      | none => none
      | some u =>
          bwStates r n y index i0 a pw R phi rest
            (fun i2 j => if i2 = i then u.2 j else newp i2 j)

/-- The initial prediction vector of `bw_zinm`: `prob[i] = 1.0 / m`. -/
def uinit (m : ℕ) : ℕ → D := fun _ => fin 1 / fin (m : ℝ)

/-- The emission matrix as a list of rows, as consumed by `block_fwdb`. -/
def rowsOf (n : ℕ) (pem : ℕ → ℕ → D) : List (ℕ → D) :=
  (List.range n).map (fun k => pem k)

/-- A list of rows as an indexed matrix. -/
def fnOf (rows : List (ℕ → D)) : ℕ → ℕ → D :=
  fun k => rows.getD k (fun _ => fin 0)

/-- The `fabs(newp[i]-p[i])` maximum of the convergence test of
`bw_zinm`, over the flat indices `0 .. m*(r+1)-1`. -/
def maxDiff (m r : ℕ) (newp p : ℕ → ℕ → D) : D :=
  (List.range (m * (r + 1))).foldl
    (fun md idx =>
      let thisd := D.abs (newp (idx / (r + 1)) (idx % (r + 1)) - p (idx / (r + 1)) (idx % (r + 1)))
      if D.lt md thisd then thisd else md)
    (fin 0)

/-- Observable outcome of one iteration of the Baum-Welch loop of
`bw_zinm`: on a bracketing failure the early `return` leaves `Q`
(already overwritten by `update_trans` at the start of the iteration),
`p` (not overwritten) and `jahmm->l` (set from this iteration's
`block_fwdb`); on success the iteration ends with the convergence test
(`conv = true` means the loop breaks, leaving `p` unchanged, otherwise
`newp` is copied into `p`). -/
inductive BwIterOut where
  | fail (Q p : ℕ → ℕ → D) (l : D) : BwIterOut
  | ok (Q p pem : ℕ → ℕ → D) (l : D) (conv : Bool) : BwIterOut

/-- The emission matrix used by one Baum-Welch iteration: recomputed by
`zinm_prob` with `otype = 4` (linear space, warnings suppressed); when
`zinm_prob` aborts, `pem` is left as it was. -/
def bwPem1 (m r n : ℕ) (y : ℕ → ℕ → ℤ) (index : ℕ → ℕ) (a pw : D)
    (p pem : ℕ → ℕ → D) : ℕ → ℕ → D :=
  (zinmProb m r n y a pw p index 4 pem).getD pem

/-- The `block_fwdb` run of one Baum-Welch iteration (this also yields
the value stored into `jahmm->l`). -/
def bwFb (m r n : ℕ) (sizes : List ℕ) (y : ℕ → ℕ → ℤ) (index : ℕ → ℕ)
    (a pw : D) (p pem Q : ℕ → ℕ → D) : FwdbOut :=
  blockFwdb m Q (uinit m) sizes (rowsOf n (bwPem1 m r n y index a pw p pem))

/-- One iteration of the Baum-Welch loop of `bw_zinm`: recompute the
emissions, run `block_fwdb` (setting `jahmm->l`), overwrite `Q` via
`update_trans`, then run the per-state emission update.  On a bracketing
failure the early `return` leaves `Q` (already overwritten), `p` (not
overwritten) and `l` (from this iteration's completed `block_fwdb`).
`R = p[1]/p[0]` is the ratio fixed at the entry of `bw_zinm`; `i0` is
the position of the first all-zero row from the indexing of the series
(`none` models the no-match sentinel when no row is all zero; `indexts`
is not among the analysed sources and its contract is taken from the
specification, section 4.1). -/
def bwZinmIter (m r : ℕ) (sizes : List ℕ) (n : ℕ) (y : ℕ → ℕ → ℤ)
    (index : ℕ → ℕ) (i0 : Option ℕ) (a pw R : D)
    (Q p pem newp0 : ℕ → ℕ → D) : BwIterOut :=
  match bwStates r n y index i0 a pw R
      (fnOf (bwFb m r n sizes y index a pw p pem Q).phi) (List.range m) newp0 with
  | none =>
      BwIterOut.fail (updateTrans m Q (bwFb m r n sizes y index a pw p pem Q).T) p
        (bwFb m r n sizes y index a pw p pem Q).ll
  | some newp =>
      if D.lt (maxDiff m r newp p) (fin (1/1000000)) then
        BwIterOut.ok (updateTrans m Q (bwFb m r n sizes y index a pw p pem Q).T) p
          (fnOf (bwFb m r n sizes y index a pw p pem Q).alpha)
          (bwFb m r n sizes y index a pw p pem Q).ll true
      else
        BwIterOut.ok (updateTrans m Q (bwFb m r n sizes y index a pw p pem Q).T)
          (fun i j => if i < m ∧ j < r + 1 then newp i j else p i j)
          (fnOf (bwFb m r n sizes y index a pw p pem Q).alpha)
          (bwFb m r n sizes y index a pw p pem Q).ll false

/-
Claim C3: transition update on rows with zero row sum.
-/

/-- Claim C3 (amended): in the trainer's transition update, every updated
entry is `T_sum[i,j] / Σ_j T_sum[i,j]`.  For a row of nonnegative finite
entries with positive row sum this is the normalized row; for a row with
zero row sum every updated entry is `0/0 = NaN` — the previous row of `Q`
is NOT retained. -/
theorem c3_update_trans_rows (m : ℕ) (Q trans : ℕ → ℕ → D) (i j : ℕ)
    (hi : i < m) (hj : j < m) (t : ℕ → ℝ)
    (ht : ∀ jj, jj < m → trans i jj = fin (t jj))
    (htn : ∀ jj, jj < m → 0 ≤ t jj) :
    (dSum (fun jj => trans i jj) m = fin 0 → updateTrans m Q trans i j = nan)
    ∧ (∀ s : ℝ, dSum (fun jj => trans i jj) m = fin s → 0 < s →
        updateTrans m Q trans i j = fin (t j / s)) := by
  have hsum : dSum (fun jj => trans i jj) m
      = fin (∑ jj ∈ Finset.range m, t jj) := dSum_fin _ t m (fun jj h => ht jj h)
  constructor
  · intro h0
    rw [hsum] at h0
    have hz : ∑ jj ∈ Finset.range m, t jj = 0 := by
      have := D.fin.inj h0; linarith
    have htj : t j = 0 := by
      have hall := (Finset.sum_eq_zero_iff_of_nonneg
        (fun jj hjj => htn jj (Finset.mem_range.mp hjj))).mp hz
      exact hall j (Finset.mem_range.mpr hj)
    unfold updateTrans
    rw [if_pos ⟨hi, hj⟩, hsum, hz, ht j hj, htj, fin_div_zero_zero]
  · intro s hs hpos
    rw [hsum] at hs
    have hz : ∑ jj ∈ Finset.range m, t jj = s := D.fin.inj hs
    unfold updateTrans
    rw [if_pos ⟨hi, hj⟩, hsum, hz, ht j hj, fin_div_fin _ _ (ne_of_gt hpos)]

/-- Witness for C3: a concrete zero row, `m = 1`, `T_sum = [0]`,
previous `Q = [7]`: the updated entry is NaN. -/
theorem c3_update_trans_rows_witness :
    updateTrans 1 (fun _ _ => fin 7) (fun _ _ => fin 0) 0 0 = nan := by
  refine (c3_update_trans_rows 1 (fun _ _ => fin 7) (fun _ _ => fin 0) 0 0
    (by norm_num) (by norm_num) (fun _ => 0) (fun _ _ => rfl)
    (fun _ _ => le_refl 0)).1 ?_
  rw [dSum_fin _ (fun _ => 0) 1 (fun _ _ => rfl)]
  norm_num

/-- Counterexample for C3 as stated: with `m = 1`, `T_sum = [0]` and
previous `Q = [7]`, the row sum is zero but `update_trans` writes
`0/0 = NaN` over `Q[0]`: the previous row is not retained and the updated
`Q` does contain NaN. -/
theorem c3_counterexample :
    updateTrans 1 (fun _ _ => fin 7) (fun _ _ => fin 0) 0 0 = nan
    ∧ (nan : D) ≠ fin 7 := by
  constructor
  · unfold updateTrans
    rw [if_pos (by norm_num : (0:ℕ) < 1 ∧ (0:ℕ) < 1)]
    rw [dSum_fin _ (fun _ => 0) 1 (fun _ _ => rfl)]
    simpa using fin_div_zero_zero
  · intro h; exact D.noConfusion h

/-
Claim C5: backward pass with a zero reverse-kernel denominator.
-/

/-- Claim C5 (amended): in `bwd`, when the reverse-kernel denominator
`x = Σ_i alpha[k,i] * Q[i,j0]` is zero (alpha and the `Q` column being
nonnegative finite values, so every product is zero), the entire stored
row `R[j0 + i*m]` is `0/0 = NaN` — not zero — and every entry of the
smoothed row `phi_k` computed from it (which sums a contribution from
successor state `j0`) is NaN. -/
theorem c5_reverse_kernel_nan (m : ℕ) (Q : ℕ → ℕ → D) (ak : ℕ → D) (j0 : ℕ)
    (hj0 : j0 < m) (av qv : ℕ → ℝ)
    (ha : ∀ i, i < m → ak i = fin (av i)) (han : ∀ i, i < m → 0 ≤ av i)
    (hq : ∀ i, i < m → Q i j0 = fin (qv i)) (hqn : ∀ i, i < m → 0 ≤ qv i)
    (hden : rkDen m Q ak j0 = fin 0) :
    (∀ i, i < m → Rker m Q ak j0 i = nan)
    ∧ ∀ phi1 : ℕ → D, ∀ j, j < m →
        dSum (fun i => phi1 i * Rker m Q ak i j) m = nan := by
  have hterm : ∀ i, i < m → ak i * Q i j0 = fin (av i * qv i) := by
    intro i him
    rw [ha i him, hq i him, fin_mul_fin]
  have hsum : rkDen m Q ak j0 = fin (∑ i ∈ Finset.range m, av i * qv i) :=
    dSum_fin _ _ m hterm
  have hz : ∑ i ∈ Finset.range m, av i * qv i = 0 := by
    rw [hsum] at hden; exact D.fin.inj hden
  have hall : ∀ i, i < m → av i * qv i = 0 := by
    intro i him
    exact (Finset.sum_eq_zero_iff_of_nonneg (fun x hx =>
        mul_nonneg (han x (Finset.mem_range.mp hx)) (hqn x (Finset.mem_range.mp hx)))).mp
      hz i (Finset.mem_range.mpr him)
  have hrow : ∀ i, i < m → Rker m Q ak j0 i = nan := by
    intro i him
    unfold Rker
    rw [hterm i him, hall i him, hden, fin_div_zero_zero]
  refine ⟨hrow, ?_⟩
  intro phi1 j hjm
  refine dSum_nan _ m j0 hj0 ?_
  rw [hrow j hjm, d_mul_nan_any]

/-- Witness for C5: a concrete two-state case with an unreachable state
`0` (`Q[·,0] = 0`): the reverse-kernel row of state `0` is NaN. -/
theorem c5_reverse_kernel_nan_witness :
    Rker 2 (fun _ j => if j = 0 then fin 0 else fin 1) (fun _ => fin (1/2)) 0 0
      = nan := by
  have hden : rkDen 2 (fun _ j => if j = 0 then (fin 0 : D) else fin 1)
      (fun _ => fin (1/2)) 0 = fin 0 := by
    have := dSum_fin
      (fun i => (fun _ => (fin (1/2) : D)) i * (fun _ j => if j = 0 then (fin 0 : D) else fin 1) i 0)
      (fun _ => (1/2 : ℝ) * 0) 2 (fun i _ => by simp [fin_mul_fin])
    unfold rkDen
    rw [this]
    norm_num
  exact (c5_reverse_kernel_nan 2 _ _ 0 (by norm_num) (fun _ => 1/2) (fun _ => 0)
    (fun _ _ => rfl) (fun _ _ => by norm_num)
    (fun i _ => by rw [if_pos rfl]) (fun _ _ => le_refl 0) hden).1 0 (by norm_num)

/-- Counterexample for C5 as stated: in the same two-state case the
reverse-kernel entry is NaN, not zero, and the `phi` row computed by
`bwd` from a two-row block is entirely NaN (the claim predicts `R` row
zero and zero contributions). -/
theorem c5_counterexample :
    Rker 2 (fun _ j => if j = 0 then fin 0 else fin 1) (fun _ => fin (1/2)) 0 0 = nan
    ∧ (nan : D) ≠ fin 0
    ∧ ((bwd 2 (fun _ j => if j = 0 then fin 0 else fin 1)
        [fun _ => fin (1/2), fun _ => fin (1/2)]).1.getD 0 (fun _ => fin 0)) 0 = nan := by
  have hden : rkDen 2 (fun _ j => if j = 0 then (fin 0 : D) else fin 1)
      (fun _ => fin (1/2)) 0 = fin 0 := by
    have := dSum_fin
      (fun i => (fun _ => (fin (1/2) : D)) i * (fun _ j => if j = 0 then (fin 0 : D) else fin 1) i 0)
      (fun _ => (1/2 : ℝ) * 0) 2 (fun i _ => by simp [fin_mul_fin])
    unfold rkDen
    rw [this]
    norm_num
  have h1 : Rker 2 (fun _ j => if j = 0 then (fin 0 : D) else fin 1)
      (fun _ => fin (1/2)) 0 0 = nan := by
    unfold Rker
    rw [hden]
    simp [fin_mul_fin, fin_div_zero_zero]
  refine ⟨h1, fun h => D.noConfusion h, ?_⟩
  show (fun j => dSum (fun i => (fun _ => (fin (1/2) : D)) i *
      Rker 2 (fun _ j2 => if j2 = 0 then (fin 0 : D) else fin 1) (fun _ => fin (1/2)) i j) 2) 0
    = nan
  refine dSum_nan _ 2 0 (by norm_num) ?_
  rw [h1, d_mul_nan_any]

/-- Helper: a `fwd` position with a NaN-free log-space row and a
non-positive normalization constant falls back to the prediction but
still contributes `row w` to the log-likelihood. -/
theorem fwdStep_log_fallback (m : ℕ) (row tmp : ℕ → D)
    (hnan : ¬ ∃ j < m, row j = nan) (hlog : D.lt (row 0) (fin 0))
    (hc : ¬ D.lt (fin 0)
      (dSum (fun j => tmp j * D.exp (row j - row (argmaxW row m))) m)) :
    fwdStep m row tmp = ⟨tmp, tmp, row (argmaxW row m)⟩ := by
  unfold fwdStep
  rw [if_neg hnan, if_pos hlog, if_neg hc]

/-- Helper: a `fwd` position with a NaN-free linear-space row and a
non-positive normalization constant falls back to the prediction and
contributes nothing. -/
theorem fwdStep_lin_fallback (m : ℕ) (row tmp : ℕ → D)
    (hnan : ¬ ∃ j < m, row j = nan) (hlin : ¬ D.lt (row 0) (fin 0))
    (hc : ¬ D.lt (fin 0) (dSum (fun j => tmp j * row j) m)) :
    fwdStep m row tmp = ⟨tmp, tmp, fin 0⟩ := by
  unfold fwdStep
  rw [if_neg hnan, if_neg hlin, if_neg hc]

/-
Claim C6: forward pass positions where the normalization constant is not
positive.
-/

/-- Claim C6 (amended): in `fwd`, at a position whose emission row has no
NaN and whose normalization constant `c` is not positive, the alphas are
set to the prediction `tmp` and `tmp` is written into `prob[k,·]`; a
linear-space row (`prob[k,0] >= 0`) contributes nothing to the
log-likelihood, but a log-space row (`prob[k,0] < 0`) still contributes
its maximum `prob[k,w]`, which was added before the collapse is
detected. -/
theorem c6_fwd_collapse (m : ℕ) (row tmp : ℕ → D)
    (hnan : ¬ ∃ j < m, row j = nan) :
    (D.lt (row 0) (fin 0) →
      ¬ D.lt (fin 0) (dSum (fun j => tmp j * D.exp (row j - row (argmaxW row m))) m) →
      fwdStep m row tmp = ⟨tmp, tmp, row (argmaxW row m)⟩)
    ∧ (¬ D.lt (row 0) (fin 0) →
      ¬ D.lt (fin 0) (dSum (fun j => tmp j * row j) m) →
      fwdStep m row tmp = ⟨tmp, tmp, fin 0⟩) := by
  exact ⟨fun hlog hc => fwdStep_log_fallback m row tmp hnan hlog hc,
    fun hlin hc => fwdStep_lin_fallback m row tmp hnan hlin hc⟩

/-- Witness for C6: `m = 1`, a log-space emission row `[-1]` and a zero
prediction: the step returns `tmp` for alpha and row, and contributes
`row[0] = -1`. -/
theorem c6_fwd_collapse_witness :
    fwdStep 1 (fun _ => fin (-1)) (fun _ => fin 0)
      = ⟨fun _ => fin 0, fun _ => fin 0, fin (-1)⟩ := by
  have h := (c6_fwd_collapse 1 (fun _ => fin (-1)) (fun _ => fin 0)
    (by simp)).1
  have hlog : D.lt ((fun _ => (fin (-1) : D)) 0) (fin 0) := by
    show D.lt (fin (-1)) (fin 0)
    rw [lt_fin_fin]; norm_num
  have hc : ¬ D.lt (fin 0)
      (dSum (fun j => (fun _ => (fin 0 : D)) j *
        D.exp ((fun _ => (fin (-1) : D)) j -
          (fun _ => (fin (-1) : D)) (argmaxW (fun _ => fin (-1)) 1))) 1) := by
    have : dSum (fun j => (fun _ => (fin 0 : D)) j *
        D.exp ((fun _ => (fin (-1) : D)) j -
          (fun _ => (fin (-1) : D)) (argmaxW (fun _ => fin (-1)) 1))) 1
        = fin (0 + 0 * Real.exp (-1 - -1)) := by
      simp only [dSum, fin_sub_fin, exp_fin, fin_mul_fin, fin_add_fin]
    rw [this, lt_fin_fin]
    norm_num
  exact h hlog hc

/-- Counterexample for C6 as stated: `m = 1`, one position, log-space
emission row `[-1]`, `init = [0]` (the all-zero-initial edge case of the
specification): `c = 0`, yet the returned log-likelihood is `-1`, not
`0` — the collapsed log-space position did contribute `prob[k,w]`. -/
theorem c6_counterexample :
    (fwd 1 (fun _ _ => fin 1) (fun _ => fin 0) [fun _ => fin (-1)]).2 = fin (-1)
    ∧ (fin (-1) : D) ≠ fin 0 := by
  constructor
  · have hstep : fwdStep 1 (fun _ => fin (-1)) (fun _ => fin 0)
        = ⟨fun _ => fin 0, fun _ => fin 0, fin (-1)⟩ := by
      have h := fwdStep_log_fallback 1 (fun _ => fin (-1)) (fun _ => fin 0)
        (by simp)
        (by show D.lt (fin (-1)) (fin 0); rw [lt_fin_fin]; norm_num)
        (by
          have he : dSum (fun j => (fun _ => (fin 0 : D)) j *
              D.exp ((fun _ => (fin (-1) : D)) j -
                (fun _ => (fin (-1) : D)) (argmaxW (fun _ => fin (-1)) 1))) 1
              = fin (0 + 0 * Real.exp (-1 - -1)) := by
            simp only [dSum, fin_sub_fin, exp_fin, fin_mul_fin, fin_add_fin]
          rw [he, lt_fin_fin]
          norm_num)
      exact h
    show (fwdAux 1 (fun _ _ => fin 1) (fun _ => fin 0) (fin 0) [fun _ => fin (-1)]).2
      = fin (-1)
    unfold fwdAux
    rw [hstep]
    show (fin 0 + fin (-1) : D) = fin (-1)
    rw [fin_add_fin]; norm_num
  · intro h
    have := D.fin.inj h
    norm_num at this

/-
Claim C1: Viterbi final-state selection.
-/

/-- Claim C1 (code bug): the final-state selection of `viterbi` compares
every `newmax[j]` against `newmax[0]` instead of the running maximum, so
it returns the LAST state beating state `0`, not the argmax.  With
`m = 3`, `n = 1`, `log_i = [0, 2, 1]` and a zero emission row, the final
scores are `newmax = [0, 2, 1]`: the decoded path is `[2]` although state
`1` has the strictly larger score (`newmax 2 < newmax 1`), contradicting
the Viterbi contract stated in the code's own synopsis. -/
theorem c1_viterbi_final_state_bug :
    viterbi 3 (fun _ _ => fin 0)
      (fun j => if j = 1 then fin 2 else if j = 2 then fin 1 else fin 0)
      [fun _ => fin 0] = [2]
    ∧ D.lt
      ((vitGo 3 (fun _ _ => fin 0)
        (fun j => (if j = 1 then (fin 2 : D) else if j = 2 then fin 1 else fin 0)
          + fin 0) []).1 2)
      ((vitGo 3 (fun _ _ => fin 0)
        (fun j => (if j = 1 then (fin 2 : D) else if j = 2 then fin 1 else fin 0)
          + fin 0) []).1 1) := by
  constructor
  · show traceback
      (finalState
        (fun j => (if j = 1 then (fin 2 : D) else if j = 2 then fin 1 else fin 0)
          + fin 0) 3)
      (List.reverse []) = [2]
    have h3 : finalState
        (fun j => (if j = 1 then (fin 2 : D) else if j = 2 then fin 1 else fin 0)
          + fin 0) 3 = 2 := by
      show (if D.lt ((if (0:ℕ) = 1 then (fin 2 : D) else if (0:ℕ) = 2 then fin 1 else fin 0) + fin 0)
          ((if (2:ℕ) = 1 then (fin 2 : D) else if (2:ℕ) = 2 then fin 1 else fin 0) + fin 0)
        then 2 else _) = 2
      rw [if_pos]
      norm_num [lt_fin_fin, fin_add_fin]
    rw [h3]
    rfl
  · show D.lt
      ((if (2:ℕ) = 1 then (fin 2 : D) else if (2:ℕ) = 2 then fin 1 else fin 0) + fin 0)
      ((if (1:ℕ) = 1 then (fin 2 : D) else if (1:ℕ) = 2 then fin 1 else fin 0) + fin 0)
    norm_num [lt_fin_fin, fin_add_fin]

/-
Claim C7: block driver additivity.
-/

/-- The per-block log-likelihood sum of `block_fwdb`. -/
def sumLl (m : ℕ) (Q : ℕ → ℕ → D) (init : ℕ → D) :
    List ℕ → List (ℕ → D) → D
  | [], _ => fin 0
  | s :: ss, rows =>
      (fwdb m Q init (rows.take s)).ll + sumLl m Q init ss (rows.drop s)

/-- The per-block transition-matrix sum of `block_fwdb`. -/
def sumT (m : ℕ) (Q : ℕ → ℕ → D) (init : ℕ → D) :
    List ℕ → List (ℕ → D) → ℕ → ℕ → D
  | [], _, _, _ => fin 0
  | s :: ss, rows, j, i =>
      (fwdb m Q init (rows.take s)).T j i + sumT m Q init ss (rows.drop s) j i

theorem blockFwdbGo_ll (m : ℕ) (Q : ℕ → ℕ → D) (init : ℕ → D) :
    ∀ (sizes : List ℕ) (rows : List (ℕ → D)) (st : ℕ → ℕ → D) (ll : D),
    (blockFwdbGo m Q init sizes rows st ll).ll = ll + sumLl m Q init sizes rows := by
  intro sizes
  induction sizes with
  | nil => intro rows st ll; show ll = ll + fin 0; rw [add_zero_d]
  | cons s ss ih =>
      intro rows st ll
      show (blockFwdbGo m Q init ss (rows.drop s) _ (ll + (fwdb m Q init (rows.take s)).ll)).ll
        = ll + sumLl m Q init (s :: ss) rows
      rw [ih]
      show ll + (fwdb m Q init (rows.take s)).ll + sumLl m Q init ss (rows.drop s) = _
      rw [d_add_assoc]
      rfl

theorem blockFwdbGo_T (m : ℕ) (Q : ℕ → ℕ → D) (init : ℕ → D) :
    ∀ (sizes : List ℕ) (rows : List (ℕ → D)) (st : ℕ → ℕ → D) (ll : D) (j i : ℕ),
    (blockFwdbGo m Q init sizes rows st ll).T j i
      = st j i + sumT m Q init sizes rows j i := by
  intro sizes
  induction sizes with
  | nil => intro rows st ll j i; show st j i = st j i + fin 0; rw [add_zero_d]
  | cons s ss ih =>
      intro rows st ll j i
      show (blockFwdbGo m Q init ss (rows.drop s)
          (fun j2 i2 => st j2 i2 + (fwdb m Q init (rows.take s)).T j2 i2) _).T j i
        = st j i + sumT m Q init (s :: ss) rows j i
      rw [ih]
      show st j i + (fwdb m Q init (rows.take s)).T j i
          + sumT m Q init ss (rows.drop s) j i = _
      rw [d_add_assoc]
      rfl

theorem blockFwdb_single_ll (m : ℕ) (Q : ℕ → ℕ → D) (init : ℕ → D)
    (s : ℕ) (b : List (ℕ → D)) :
    (blockFwdb m Q init [s] b).ll = fin 0 + ((fwdb m Q init (b.take s)).ll + fin 0) := by
  exact blockFwdbGo_ll m Q init [s] b _ _

theorem blockFwdb_single_T (m : ℕ) (Q : ℕ → ℕ → D) (init : ℕ → D)
    (s : ℕ) (b : List (ℕ → D)) (j i : ℕ) :
    (blockFwdb m Q init [s] b).T j i
      = fin 0 + ((fwdb m Q init (b.take s)).T j i + fin 0) := by
  exact blockFwdbGo_T m Q init [s] b _ _ j i

/-- Claim C7: the block driver is additive over blocks: its accumulated
log-likelihood is the sum of the log-likelihoods of the runs with
`nb = 1` on the individual blocks, and its accumulated `T_sum` matrix is
the entrywise sum of the per-block `T` matrices (exact equality in the
model, where real arithmetic is associative). -/
theorem c7_block_additivity (m : ℕ) (Q : ℕ → ℕ → D) (init : ℕ → D)
    (sizes : List ℕ) (rows : List (ℕ → D)) :
    (blockFwdb m Q init sizes rows).ll
      = ((sizes.zip (chunks sizes rows)).map
          (fun sb => (blockFwdb m Q init [sb.1] sb.2).ll)).foldr D.add (fin 0)
    ∧ ∀ j i, (blockFwdb m Q init sizes rows).T j i
      = ((sizes.zip (chunks sizes rows)).map
          (fun sb => (blockFwdb m Q init [sb.1] sb.2).T j i)).foldr D.add (fin 0) := by
  have hfold_ll : ∀ (sizes : List ℕ) (rows : List (ℕ → D)),
      ((sizes.zip (chunks sizes rows)).map
        (fun sb => (blockFwdb m Q init [sb.1] sb.2).ll)).foldr D.add (fin 0)
      = sumLl m Q init sizes rows := by
    intro sizes
    induction sizes with
    | nil => intro rows; rfl
    | cons s ss ih =>
        intro rows
        have hc : chunks (s :: ss) rows = rows.take s :: chunks ss (rows.drop s) := rfl
        rw [hc, List.zip_cons_cons, List.map_cons, List.foldr_cons,
          ih (rows.drop s), blockFwdb_single_ll, List.take_take, min_self,
          zero_add_d, add_zero_d]
        rfl
  have hfold_T : ∀ (sizes : List ℕ) (rows : List (ℕ → D)) (j i : ℕ),
      ((sizes.zip (chunks sizes rows)).map
        (fun sb => (blockFwdb m Q init [sb.1] sb.2).T j i)).foldr D.add (fin 0)
      = sumT m Q init sizes rows j i := by
    intro sizes
    induction sizes with
    | nil => intro rows j i; rfl
    | cons s ss ih =>
        intro rows j i
        have hc : chunks (s :: ss) rows = rows.take s :: chunks ss (rows.drop s) := rfl
        rw [hc, List.zip_cons_cons, List.map_cons, List.foldr_cons,
          ih (rows.drop s), blockFwdb_single_T, List.take_take, min_self,
          zero_add_d, add_zero_d]
        rfl
  constructor
  · show (blockFwdbGo m Q init sizes rows _ (fin 0)).ll = _
    rw [blockFwdbGo_ll, zero_add_d, hfold_ll sizes rows]
  · intro j i
    show (blockFwdbGo m Q init sizes rows _ (fin 0)).T j i = _
    rw [blockFwdbGo_T, zero_add_d, hfold_T sizes rows j i]

/-
Claim C10: the forward pass keeps every written row summing to one.
-/

theorem argmaxW_lt (row : ℕ → D) : ∀ m : ℕ, 0 < m → argmaxW row m < m
  | 0, h => absurd h (lt_irrefl 0)
  | 1, _ => by simp [argmaxW]
  | n + 2, _ => by
      show (if D.lt (row (argmaxW row (n + 1))) (row (n + 1)) then n + 1
        else argmaxW row (n + 1)) < n + 2
      split
      · omega
      · exact Nat.lt_succ_of_lt (argmaxW_lt row (n + 1) (Nat.succ_pos n))

/-- The scan of `fwd` finds a maximal slot: no scanned slot is strictly
above `row w`. -/
theorem argmaxW_not_lt (row : ℕ → D) :
    ∀ m : ℕ, ∀ j, j < m → ¬ D.lt (row (argmaxW row m)) (row j)
  | 0, j, hj => absurd hj (Nat.not_lt_zero j)
  | 1, j, hj => by
      have hj0 : j = 0 := by omega
      subst hj0
      show ¬ D.lt (row 0) (row 0)
      exact d_lt_irrefl _
  | n + 2, j, hj => by
      have hrec := argmaxW_not_lt row (n + 1)
      show ¬ D.lt (row (if D.lt (row (argmaxW row (n + 1))) (row (n + 1)) then n + 1
        else argmaxW row (n + 1))) (row j)
      by_cases hcase : D.lt (row (argmaxW row (n + 1))) (row (n + 1))
      · rw [if_pos hcase]
        rcases Nat.lt_succ_iff_lt_or_eq.mp hj with h1 | h1
        · intro hlt
          exact hrec j h1 (d_lt_trans _ _ _ hcase hlt)
        · rw [h1]; exact d_lt_irrefl _
      · rw [if_neg hcase]
        rcases Nat.lt_succ_iff_lt_or_eq.mp hj with h1 | h1
        · exact hrec j h1
        · rw [h1]; exact hcase

/-- The prediction step preserves "finite values summing to one" when
every row of `Q` sums to one. -/
theorem fwdTmp_sumOne (m : ℕ) (Q : ℕ → ℕ → D) (a : ℕ → D)
    (hQ : ∀ i, i < m → dSum (fun j => Q i j) m = fin 1)
    (ha : dSum a m = fin 1) :
    dSum (fwdTmp m Q a) m = fin 1 := by
  obtain ⟨g, hg, hgs⟩ := dSum_eq_fin_extract a m 1 ha
  have hQ2 : ∀ i, ∃ q : ℕ → ℝ, i < m → (∀ j, j < m → Q i j = fin (q j))
      ∧ ∑ j ∈ Finset.range m, q j = 1 := by
    intro i
    by_cases him : i < m
    · obtain ⟨q, hq1, hq2⟩ := dSum_eq_fin_extract (fun j => Q i j) m 1 (hQ i him)
      exact ⟨q, fun _ => ⟨hq1, hq2⟩⟩
    · exact ⟨fun _ => 0, fun h => absurd h him⟩
  choose q hq using hQ2
  have htmp : ∀ j, j < m → fwdTmp m Q a j = fin (∑ i ∈ Finset.range m, g i * q i j) := by
    intro j hj
    exact dSum_fin _ _ m (fun i hi => by
      show a i * Q i j = fin (g i * q i j)
      rw [hg i hi, ((hq i) hi).1 j hj, fin_mul_fin])
  rw [dSum_fin _ _ m htmp]
  have hs : ∑ j ∈ Finset.range m, ∑ i ∈ Finset.range m, g i * q i j = 1 := by
    rw [Finset.sum_comm]
    have hrow : ∀ i ∈ Finset.range m, ∑ j ∈ Finset.range m, g i * q i j = g i := by
      intro i hi
      rw [← Finset.mul_sum, ((hq i) (Finset.mem_range.mp hi)).2, mul_one]
    rw [Finset.sum_congr rfl hrow, hgs]
  rw [hs]

/-- One position of the forward pass preserves the row-sum-one invariant,
provided linear-space rows (no NaN, `row 0 >= 0`) consist of finite
values. -/
theorem fwdStep_sumOne (m : ℕ) (row tmp : ℕ → D)
    (htmp : dSum tmp m = fin 1)
    (hrow : (¬ ∃ j < m, row j = nan) → ¬ D.lt (row 0) (fin 0) →
        ∀ j, j < m → ∃ x : ℝ, row j = fin x) :
    dSum (fwdStep m row tmp).a m = fin 1 ∧ dSum (fwdStep m row tmp).row m = fin 1 := by
  have hm : 0 < m := by
    by_contra hmc
    have h0 : m = 0 := by omega
    rw [h0] at htmp
    have h01 : (0:ℝ) = 1 := D.fin.inj htmp
    norm_num at h01
  obtain ⟨tv, htv, htvs⟩ := dSum_eq_fin_extract tmp m 1 htmp
  unfold fwdStep
  by_cases hnan : ∃ j < m, row j = nan
  · rw [if_pos hnan]
    exact ⟨htmp, htmp⟩
  rw [if_neg hnan]
  have hnot : ∀ j, j < m → row j ≠ nan := fun j hj hcon => hnan ⟨j, hj, hcon⟩
  by_cases hlog : D.lt (row 0) (fin 0)
  · rw [if_pos hlog]
    have hwm : argmaxW row m < m := argmaxW_lt row m hm
    have hav : ∀ j, j < m →
        (∃ v, tmp j * D.exp (row j - row (argmaxW row m)) = fin v)
        ∨ tmp j * D.exp (row j - row (argmaxW row m)) = nan := by
      intro j hj
      have hmax := argmaxW_not_lt row m j hj
      have htj := htv j hj
      cases hrj : row j with
      | nan => exact absurd hrj (hnot j hj)
      | fin a =>
          cases hrw : row (argmaxW row m) with
          | nan => exact absurd hrw (hnot _ hwm)
          | fin b =>
              left
              rw [htj, fin_sub_fin, exp_fin, fin_mul_fin]
              exact ⟨_, rfl⟩
          | pinf =>
              left
              rw [htj, show D.exp (fin a - pinf) = fin 0 from rfl, fin_mul_fin]
              exact ⟨_, rfl⟩
          | ninf =>
              rw [hrj, hrw] at hmax
              exact absurd trivial hmax
      | pinf =>
          cases hrw : row (argmaxW row m) with
          | nan => exact absurd hrw (hnot _ hwm)
          | fin b =>
              rw [hrj, hrw] at hmax
              exact absurd trivial hmax
          | pinf =>
              right
              rw [show D.exp (pinf - pinf) = nan from rfl]
              exact d_mul_nan_any _
          | ninf =>
              rw [hrj, hrw] at hmax
              exact absurd trivial hmax
      | ninf =>
          cases hrw : row (argmaxW row m) with
          | nan => exact absurd hrw (hnot _ hwm)
          | fin b =>
              left
              rw [htj, show D.exp (ninf - fin b) = fin 0 from rfl, fin_mul_fin]
              exact ⟨_, rfl⟩
          | pinf =>
              left
              rw [htj, show D.exp (ninf - pinf) = fin 0 from rfl, fin_mul_fin]
              exact ⟨_, rfl⟩
          | ninf =>
              right
              rw [show D.exp (ninf - ninf) = nan from rfl]
              exact d_mul_nan_any _
    by_cases hcall : ∀ j, j < m → ∃ v, tmp j * D.exp (row j - row (argmaxW row m)) = fin v
    · have hcall2 : ∀ j, ∃ v, j < m →
          tmp j * D.exp (row j - row (argmaxW row m)) = fin v := by
        intro j
        by_cases hj : j < m
        · exact (hcall j hj).imp (fun v hv _ => hv)
        · exact ⟨0, fun h => absurd h hj⟩
      choose g hg using hcall2
      have hce : dSum (fun j => tmp j * D.exp (row j - row (argmaxW row m))) m
          = fin (∑ j ∈ Finset.range m, g j) := dSum_fin _ g m (fun j hj => hg j hj)
      by_cases hc : D.lt (fin 0)
          (dSum (fun j => tmp j * D.exp (row j - row (argmaxW row m))) m)
      · rw [if_pos hc]
        rw [hce] at hc
        have hpos : 0 < ∑ j ∈ Finset.range m, g j := (lt_fin_fin _ _).mp hc
        constructor
        · exact dSum_div_self _ m g (fun j hj => hg j hj) _ rfl hpos _ hce
        · exact dSum_div_self _ m g (fun j hj => hg j hj) _ rfl hpos _ hce
      · rw [if_neg hc]
        exact ⟨htmp, htmp⟩
    · push_neg at hcall
      obtain ⟨j, hj, hjn⟩ := hcall
      have hjnan : tmp j * D.exp (row j - row (argmaxW row m)) = nan := by
        rcases hav j hj with ⟨v, hv⟩ | hn
        · exact absurd hv (hjn v)
        · exact hn
      have hcnan : dSum (fun j2 => tmp j2 * D.exp (row j2 - row (argmaxW row m))) m
          = nan := dSum_nan _ m j hj hjnan
      have hc : ¬ D.lt (fin 0)
          (dSum (fun j2 => tmp j2 * D.exp (row j2 - row (argmaxW row m))) m) := by
        rw [hcnan]
        exact fun h => h
      rw [if_neg hc]
      exact ⟨htmp, htmp⟩
  · rw [if_neg hlog]
    obtain ⟨rv0⟩ : Nonempty Unit := ⟨()⟩
    have hfin := hrow hnan hlog
    have hfin2 : ∀ j, ∃ v, j < m → row j = fin v := by
      intro j
      by_cases hj : j < m
      · exact (hfin j hj).imp (fun v hv _ => hv)
      · exact ⟨0, fun h => absurd h hj⟩
    choose rv hrv using hfin2
    have hce : dSum (fun j => tmp j * row j) m
        = fin (∑ j ∈ Finset.range m, tv j * rv j) := by
      refine dSum_fin _ _ m ?_
      intro j hj
      show tmp j * row j = fin (tv j * rv j)
      rw [htv j hj, hrv j hj, fin_mul_fin]
    by_cases hc : D.lt (fin 0) (dSum (fun j => tmp j * row j) m)
    · rw [if_pos hc]
      rw [hce] at hc
      have hpos : 0 < ∑ j ∈ Finset.range m, tv j * rv j := (lt_fin_fin _ _).mp hc
      constructor
      · refine dSum_div_self _ m (fun j => tv j * rv j) ?_ _ rfl hpos _ hce
        intro j hj
        show tmp j * row j = fin (tv j * rv j)
        rw [htv j hj, hrv j hj, fin_mul_fin]
      · refine dSum_div_self _ m (fun j => tv j * rv j) ?_ _ rfl hpos _ hce
        intro j hj
        show tmp j * row j = fin (tv j * rv j)
        rw [htv j hj, hrv j hj, fin_mul_fin]
    · rw [if_neg hc]
      exact ⟨htmp, htmp⟩

/-- The forward loop keeps every written row summing to one. -/
theorem fwdAux_rows_sumOne (m : ℕ) (Q : ℕ → ℕ → D)
    (hQ : ∀ i, i < m → dSum (fun j => Q i j) m = fin 1) :
    ∀ (rows : List (ℕ → D)) (tmp : ℕ → D) (ll : D),
    dSum tmp m = fin 1 →
    (∀ row ∈ rows, (¬ ∃ j < m, row j = nan) → ¬ D.lt (row 0) (fin 0) →
        ∀ j, j < m → ∃ x : ℝ, row j = fin x) →
    ∀ row ∈ (fwdAux m Q tmp ll rows).1, dSum row m = fin 1 := by
  intro rows
  induction rows with
  | nil =>
      intro tmp ll _ _ row hrow
      exact absurd hrow (List.not_mem_nil row)
  | cons r rest ih =>
      intro tmp ll htmp hlin row hrow
      obtain ⟨hs1, hs2⟩ := fwdStep_sumOne m r tmp htmp (hlin r (List.mem_cons_self r rest))
      have hrow2 : row = (fwdStep m r tmp).row
          ∨ row ∈ (fwdAux m Q (fwdTmp m Q (fwdStep m r tmp).a)
              (ll + (fwdStep m r tmp).inc) rest).1 := by
        exact List.mem_cons.mp hrow
      rcases hrow2 with h1 | h1
      · rw [h1]
        exact hs2
      · exact ih (fwdTmp m Q (fwdStep m r tmp).a) (ll + (fwdStep m r tmp).inc)
          (fwdTmp_sumOne m Q _ hQ hs1)
          (fun rr hrr => hlin rr (List.mem_cons_of_mem r hrr)) row h1

/-- Claim C10 (amended): if every row of `Q` sums to 1 and `init` sums to
1, and every emission row that has no NaN and is in the linear convention
(`row 0 >= 0`) consists of finite values, then every row of the matrix
overwritten by the forward pass sums to 1 — including the rows handled by
the missing-emission fallback (NaN emissions or `c <= 0`), which hold the
one-step prediction `tmp`.  (Without the finiteness proviso the claim
fails: see the counterexample with a `+inf` emission.) -/
theorem c10_forward_rows_sum_one (m : ℕ) (Q : ℕ → ℕ → D) (init : ℕ → D)
    (rows : List (ℕ → D))
    (hQ : ∀ i, i < m → dSum (fun j => Q i j) m = fin 1)
    (hinit : dSum init m = fin 1)
    (hlin : ∀ row ∈ rows, (¬ ∃ j < m, row j = nan) → ¬ D.lt (row 0) (fin 0) →
        ∀ j, j < m → ∃ x : ℝ, row j = fin x) :
    ∀ row ∈ (fwd m Q init rows).1, dSum row m = fin 1 :=
  fwdAux_rows_sumOne m Q hQ rows init (fin 0) hinit hlin

/-- Witness for C10: a one-state chain with emission `1/2`: the written
row sums to one. -/
theorem c10_forward_rows_sum_one_witness :
    dSum ((fwd 1 (fun _ _ => fin 1) (fun _ => fin 1)
      [fun _ => fin (1/2)]).1.getD 0 (fun _ => fin 0)) 1 = fin 1 := by
  have hmem : ((fwd 1 (fun _ _ => (fin 1:D)) (fun _ => fin 1)
      [fun _ => fin (1/2)]).1.getD 0 (fun _ => fin 0))
      ∈ (fwd 1 (fun _ _ => (fin 1:D)) (fun _ => fin 1) [fun _ => fin (1/2)]).1 := by
    show (fwdStep 1 (fun _ => fin (1/2)) (fun _ => fin 1)).row
      ∈ [(fwdStep 1 (fun _ => fin (1/2)) (fun _ => fin 1)).row]
    exact List.mem_singleton.mpr rfl
  refine c10_forward_rows_sum_one 1 (fun _ _ => fin 1) (fun _ => fin 1)
    [fun _ => fin (1/2)] ?_ ?_ ?_ _ hmem
  · intro i _
    rw [dSum_succ, dSum_zero, fin_add_fin]
    norm_num
  · rw [dSum_succ, dSum_zero, fin_add_fin]
    norm_num
  · intro row hrow _ _ j _
    have hr : row = fun _ => fin (1/2) := List.mem_singleton.mp hrow
    rw [hr]
    exact ⟨1/2, rfl⟩

/-- Counterexample for C10 as stated: with row-stochastic `Q`, `init`
summing to one, and the emission row `[+inf, 1]` (linear convention,
no NaN), the normalization constant is `+inf` and the forward pass writes
the row `[NaN, 0]`, which sums to NaN, not 1. -/
theorem c10_counterexample :
    (∀ i, i < 2 → dSum (fun _ => (fin (1/2) : D)) 2 = fin 1)
    ∧ dSum (fun _ => (fin (1/2) : D)) 2 = fin 1
    ∧ dSum ((fwd 2 (fun _ _ => fin (1/2)) (fun _ => fin (1/2))
        [fun j => if j = 0 then pinf else fin 1]).1.getD 0 (fun _ => fin 0)) 2 = nan
    ∧ (nan : D) ≠ fin 1 := by
  have hsum2 : dSum (fun _ => (fin (1/2) : D)) 2 = fin 1 := by
    rw [dSum_succ, dSum_succ, dSum_zero, fin_add_fin, fin_add_fin]
    norm_num
  have hcv : dSum (fun j2 => (fun _ => (fin (1/2) : D)) j2 *
      (fun j => if j = 0 then (pinf:D) else fin 1) j2) 2 = pinf := by
    show (fin 0 + fin (1/2) * (if (0:ℕ) = 0 then (pinf:D) else fin 1))
      + fin (1/2) * (if (1:ℕ) = 0 then (pinf:D) else fin 1) = pinf
    rw [if_pos rfl, if_neg (by norm_num : ¬ (1:ℕ) = 0),
      fin_mul_pinf_pos _ (by norm_num : (0:ℝ) < 1/2), fin_mul_fin]
    rfl
  have hnan : ¬ ∃ j < 2, (fun j => if j = 0 then (pinf:D) else fin 1) j = nan := by
    rintro ⟨j, hj, h⟩
    interval_cases j <;> simp_all
  have hlog : ¬ D.lt ((fun j => if j = 0 then (pinf:D) else fin 1) 0) (fin 0) := by
    exact fun h => h
  have hc : D.lt (fin 0) (dSum (fun j => (fun _ => (fin (1/2) : D)) j *
      (fun j => if j = 0 then (pinf:D) else fin 1) j) 2) := by
    rw [hcv]
    trivial
  have hs : (fwdStep 2 (fun j => if j = 0 then (pinf:D) else fin 1)
      (fun _ => fin (1/2))).row
      = fun j => ((fun _ => (fin (1/2) : D)) j *
          (fun j => if j = 0 then (pinf:D) else fin 1) j)
        / dSum (fun j2 => (fun _ => (fin (1/2) : D)) j2 *
          (fun j => if j = 0 then (pinf:D) else fin 1) j2) 2 := by
    unfold fwdStep
    rw [if_neg hnan, if_neg hlog, if_pos hc]
  refine ⟨fun _ _ => hsum2, hsum2, ?_, fun h => D.noConfusion h⟩
  show dSum ((fwdStep 2 (fun j => if j = 0 then (pinf:D) else fin 1)
      (fun _ => fin (1/2))).row) 2 = nan
  rw [hs]
  show (fin 0 + (fin (1/2) * (if (0:ℕ) = 0 then (pinf:D) else fin 1))
      / dSum (fun j2 => (fun _ => (fin (1/2) : D)) j2 *
        (fun j => if j = 0 then (pinf:D) else fin 1) j2) 2)
    + (fin (1/2) * (if (1:ℕ) = 0 then (pinf:D) else fin 1))
      / dSum (fun j2 => (fun _ => (fin (1/2) : D)) j2 *
        (fun j => if j = 0 then (pinf:D) else fin 1) j2) 2 = nan
  rw [hcv, if_pos rfl, if_neg (by norm_num : ¬ (1:ℕ) = 0),
    fin_mul_pinf_pos _ (by norm_num : (0:ℝ) < 1/2), fin_mul_fin]
  rfl

/-
Claims C8 and C9: the emission evaluator zinm_prob.
-/

/-- Rows not in the worklist are never written. -/
theorem zinmGo_preserve (m r : ℕ) (y : ℕ → ℕ → ℤ) (a pw : D) (p : ℕ → ℕ → D)
    (otype : ℕ) (index : ℕ → ℕ) :
    ∀ (L : List ℕ) (s : ℕ → ℕ → D) (k : ℕ), k ∉ L →
    zinmGo m r y a pw p otype index L s k = s k := by
  intro L
  induction L with
  | nil => intro s k _; rfl
  | cons x xs ih =>
      intro s k hk
      have hkx : k ≠ x := fun h => hk (h ▸ List.mem_cons_self x xs)
      have hkxs : k ∉ xs := fun h => hk (List.mem_cons_of_mem x h)
      show zinmGo m r y a pw p otype index xs
        (writeRow s x (zinmRowAt m r y a pw p otype index s x)) k = s k
      rw [ih _ k hkxs]
      show (if k = x then zinmRowAt m r y a pw p otype index s x else s k) = s k
      rw [if_neg hkx]

/-- A position processed with `index k < k` ends up equal to the final
row at `index k` (the canonical first occurrence is written before `k`
and never changed afterwards). -/
theorem zinmGo_copy (m r : ℕ) (y : ℕ → ℕ → ℤ) (a pw : D) (p : ℕ → ℕ → D)
    (otype : ℕ) (index : ℕ → ℕ) :
    ∀ (L : List ℕ) (s : ℕ → ℕ → D), List.Pairwise (· < ·) L →
    ∀ k ∈ L, index k < k →
    zinmGo m r y a pw p otype index L s k
      = zinmGo m r y a pw p otype index L s (index k) := by
  intro L
  induction L with
  | nil => intro s _ k hk _; exact absurd hk (List.not_mem_nil k)
  | cons x xs ih =>
      intro s hp2 k hk hidx
      have hlt := (List.pairwise_cons.mp hp2).1
      have hps := (List.pairwise_cons.mp hp2).2
      rcases List.mem_cons.mp hk with h1 | h1
      · subst h1
        have hknx : k ∉ xs := fun h => absurd (hlt k h) (lt_irrefl k)
        have hinx : index k ∉ xs := fun h => Nat.lt_asymm hidx (hlt (index k) h)
        show zinmGo m r y a pw p otype index xs
            (writeRow s k (zinmRowAt m r y a pw p otype index s k)) k
          = zinmGo m r y a pw p otype index xs
            (writeRow s k (zinmRowAt m r y a pw p otype index s k)) (index k)
        rw [zinmGo_preserve m r y a pw p otype index xs _ k hknx,
          zinmGo_preserve m r y a pw p otype index xs _ (index k) hinx]
        show (if k = k then zinmRowAt m r y a pw p otype index s k else s k)
          = (if index k = k then zinmRowAt m r y a pw p otype index s k else s (index k))
        rw [if_pos rfl, if_neg (Nat.ne_of_lt hidx)]
        show zinmRowAt m r y a pw p otype index s k = s (index k)
        unfold zinmRowAt
        rw [if_pos hidx]
      · exact ih _ hps k h1 hidx

/-- A canonical position (`index k >= k`) ends up holding its computed
row. -/
theorem zinmGo_compute (m r : ℕ) (y : ℕ → ℕ → ℤ) (a pw : D) (p : ℕ → ℕ → D)
    (otype : ℕ) (index : ℕ → ℕ) :
    ∀ (L : List ℕ) (s : ℕ → ℕ → D), List.Pairwise (· < ·) L →
    ∀ k ∈ L, ¬ index k < k →
    zinmGo m r y a pw p otype index L s k = computeRow m r y a pw p otype k := by
  intro L
  induction L with
  | nil => intro s _ k hk _; exact absurd hk (List.not_mem_nil k)
  | cons x xs ih =>
      intro s hp2 k hk hidx
      have hlt := (List.pairwise_cons.mp hp2).1
      have hps := (List.pairwise_cons.mp hp2).2
      rcases List.mem_cons.mp hk with h1 | h1
      · subst h1
        have hknx : k ∉ xs := fun h => absurd (hlt k h) (lt_irrefl k)
        show zinmGo m r y a pw p otype index xs
            (writeRow s k (zinmRowAt m r y a pw p otype index s k)) k
          = computeRow m r y a pw p otype k
        rw [zinmGo_preserve m r y a pw p otype index xs _ k hknx]
        show (if k = k then zinmRowAt m r y a pw p otype index s k else s k)
          = computeRow m r y a pw p otype k
        rw [if_pos rfl]
        unfold zinmRowAt
        rw [if_neg hidx]
      · exact ih _ hps k h1 hidx

/-- Claim C8: after a completed run of the emission evaluator, every row
`k` with `index k < k` is (bitwise, i.e. value-) equal to the row of its
canonical first occurrence `index k`, in all slots and for every output
mode in which the evaluator completes. -/
theorem c8_emission_cache (m r n : ℕ) (y : ℕ → ℕ → ℤ) (a pw : D)
    (p : ℕ → ℕ → D) (index : ℕ → ℕ) (otype : ℕ) (pem0 pem1 : ℕ → ℕ → D)
    (hrun : zinmProb m r n y a pw p index otype pem0 = some pem1)
    (k : ℕ) (hk : k < n) (hidx : index k < k) :
    ∀ i, pem1 k i = pem1 (index k) i := by
  unfold zinmProb at hrun
  split_ifs at hrun with h1 h2
  have hp : zinmGo m r y a pw p otype index (List.range n) pem0 = pem1 :=
    Option.some.inj hrun
  intro i
  rw [← hp]
  exact congrFun (zinmGo_copy m r y a pw p otype index (List.range n) pem0
    (List.pairwise_lt_range n) k (List.mem_range.mpr hk) hidx) i

/-- Witness for C8: two identical all-zero observation rows, `index =
[0,0]`, log output mode: row 1 of the returned emission matrix equals
row 0. -/
theorem c8_emission_cache_witness :
    zinmGo 1 1 (fun _ _ => 0) (fin 1) (fin (1/2)) (fun _ _ => fin (1/2)) 1
      (fun _ => 0) (List.range 2) (fun _ _ => fin 7) 1 0
    = zinmGo 1 1 (fun _ _ => 0) (fin 1) (fin (1/2)) (fun _ _ => fin (1/2)) 1
      (fun _ => 0) (List.range 2) (fun _ _ => fin 7) 0 0 := by
  have hrun : zinmProb 1 1 2 (fun _ _ => 0) (fin 1) (fin (1/2))
      (fun _ _ => fin (1/2)) (fun _ => 0) 1 (fun _ _ => fin 7)
      = some (zinmGo 1 1 (fun _ _ => 0) (fin 1) (fin (1/2))
        (fun _ _ => fin (1/2)) 1 (fun _ => 0) (List.range 2) (fun _ _ => fin 7)) := by
    unfold zinmProb
    rw [if_neg (by norm_num), if_neg]
    rintro ⟨i, hi, j, hj, h⟩
    rw [lt_fin_fin] at h
    norm_num at h
  exact c8_emission_cache 1 1 2 (fun _ _ => 0) (fin 1) (fin (1/2))
    (fun _ _ => fin (1/2)) (fun _ => 0) 1 (fun _ _ => fin 7) _ hrun 1
    (by norm_num) (by norm_num) 0

/-- Accumulation over terms that are all zero keeps the seed value. -/
theorem dAccum_zero_terms (s : D) (f : ℕ → D) (x : ℝ) (hs : s = fin x) :
    ∀ t : ℕ, (∀ j, j < t → f j = fin 0) → dAccum s f t = fin x := by
  intro t
  induction t with
  | zero => intro _; exact hs
  | succ t ih =>
      intro hf
      show dAccum s f t + f t = fin x
      rw [ih (fun j hj => hf j (Nat.lt_succ_of_lt hj)), hf t (Nat.lt_succ_self t),
        fin_add_fin, add_zero]

theorem lgamma_fin_one : D.lgamma (fin 1) = fin 0 := by
  simp only [D.lgamma]
  rw [if_neg (by rw [Real.Gamma_one]; norm_num), Real.Gamma_one, abs_one, Real.log_one]

/-- Claim C9: for a canonical row whose observations are all zero, the
log emission computed by the ZINM evaluator for state `i` equals
`log(pi * p0^a + (1 - pi))` with `p0 = P[i,0]`, under the precondition
that row `i` of `P` is nonnegative finite and sums to 1 (log output
mode, with or without the constant-term flag — for an all-zero row the
constant term is exactly zero). -/
theorem c9_zero_row_emission (m r n : ℕ) (y : ℕ → ℕ → ℤ) (av piv : ℝ)
    (p : ℕ → ℕ → D) (q : ℕ → ℝ) (index : ℕ → ℕ) (otype : ℕ)
    (pem0 pem1 : ℕ → ℕ → D) (i k : ℕ)
    (hrun : zinmProb m r n y (fin av) (fin piv) p index otype pem0 = some pem1)
    (hlog : otype % 4 = 1)
    (hk : k < n) (hcanon : ¬ index k < k)
    (hzero : ∀ j, j < r → y k j = 0)
    (hq : ∀ j, j < r + 1 → p i j = fin (q j))
    (hsum : ∑ j ∈ Finset.range (r + 1), q j = 1)
    (hp0 : 0 < q 0)
    (hpi0 : 0 ≤ piv) (hpi1 : piv ≤ 1) (ha : 0 < av) :
    pem1 k i = fin (Real.log (piv * q 0 ^ av + (1 - piv))) := by
  unfold zinmProb at hrun
  split_ifs at hrun with h1 h2
  have hp : zinmGo m r y (fin av) (fin piv) p otype index (List.range n) pem0 = pem1 :=
    Option.some.inj hrun
  rw [← hp, zinmGo_compute m r y (fin av) (fin piv) p otype index (List.range n) pem0
    (List.pairwise_lt_range n) k (List.mem_range.mpr hk) hcanon]
  have hinv : ¬ isInvalid y k r := by
    rintro ⟨j, hj, hneg⟩
    rw [hzero j hj] at hneg
    exact absurd hneg (lt_irrefl 0)
  have hall : isAllZero y k r := fun j hj => hzero j hj
  have hsump : sump r p i = fin 1 := by
    unfold sump
    rw [dSum_fin _ q (r + 1) (fun j hj => hq j hj), hsum]
  have hlogp : logp r p i 0 = fin (Real.log (q 0)) := by
    unfold logp
    rw [hsump, hq 0 (by omega), fin_div_fin _ _ one_ne_zero, div_one,
      log_fin_pos _ hp0]
  have hargpos : 0 < piv * Real.exp (av * Real.log (q 0)) + (1 - piv) := by
    rcases eq_or_lt_of_le hpi0 with h0 | h0
    · rw [← h0]; norm_num
    · have := Real.exp_pos (av * Real.log (q 0))
      nlinarith
  have hzr : zeroRow r (fin av) (fin piv) p i
      = fin (Real.log (piv * Real.exp (av * Real.log (q 0)) + (1 - piv))) := by
    unfold zeroRow
    rw [hlogp, fin_mul_fin, exp_fin, fin_mul_fin, fin_sub_fin, fin_add_fin,
      log_fin_pos _ hargpos]
  have hval : Real.log (piv * Real.exp (av * Real.log (q 0)) + (1 - piv))
      = Real.log (piv * q 0 ^ av + (1 - piv)) := by
    rw [Real.rpow_def_of_pos hp0, mul_comm (Real.log (q 0)) av]
  have hbase : rowBase r y (fin av) (fin piv) p k i
      = fin (Real.log (piv * q 0 ^ av + (1 - piv))) := by
    unfold rowBase
    rw [if_pos hall, hzr, hval]
  have hcterm : cterm r y (fin av) k = fin 0 := by
    unfold cterm
    have hlg : D.lgamma (fin av) = fin (Real.log |Real.Gamma av|) := by
      simp only [D.lgamma]
      rw [if_neg (ne_of_gt (Real.Gamma_pos_of_pos ha))]
    have h1 : dAccum (D.neg (D.lgamma (fin av)))
        (fun j => D.neg (D.lgamma (fin ((y k j : ℝ) + 1)))) r
        = fin (-(Real.log |Real.Gamma av|)) := by
      refine dAccum_zero_terms _ _ _ (by rw [hlg]; rfl) r ?_
      intro j hj
      show D.neg (D.lgamma (fin ((y k j : ℝ) + 1))) = fin 0
      rw [hzero j hj]
      rw [show (((0:ℤ) : ℝ) + 1) = (1:ℝ) by norm_num, lgamma_fin_one]
      show fin (-0) = fin 0
      norm_num
    have h2 : dAccum (fin av) (fun j => fin ((y k j : ℝ))) r = fin av := by
      refine dAccum_zero_terms _ _ _ rfl r ?_
      intro j hj
      show fin ((y k j : ℝ)) = fin 0
      rw [hzero j hj]
      norm_num
    rw [h1, h2, hlg, fin_add_fin]
    norm_num
  unfold computeRow
  rw [if_neg hinv, if_pos hlog]
  show rowWC r y (fin av) (fin piv) p otype k i = _
  unfold rowWC
  by_cases hbit : (otype >>> 3) % 2 = 1
  · rw [if_pos hbit, hcterm, hbase, fin_add_fin, add_zero]
  · rw [if_neg hbit, hbase]

/-- Witness for C9: one all-zero row, `r = 1`, `P` row `[1/2, 1/2]`,
`a = 2`, `pi = 1/2`, log mode: the emission is
`log((1/2)*(1/2)^2 + 1/2)`. -/
theorem c9_zero_row_emission_witness :
    zinmGo 1 1 (fun _ _ => 0) (fin 2) (fin (1/2)) (fun _ _ => fin (1/2)) 1
      (fun _ => 0) (List.range 1) (fun _ _ => fin 7) 0 0
    = fin (Real.log ((1/2) * (1/2 : ℝ) ^ (2:ℝ) + (1 - 1/2))) := by
  have hrun : zinmProb 1 1 1 (fun _ _ => 0) (fin 2) (fin (1/2))
      (fun _ _ => fin (1/2)) (fun _ => 0) 1 (fun _ _ => fin 7)
      = some (zinmGo 1 1 (fun _ _ => 0) (fin 2) (fin (1/2))
        (fun _ _ => fin (1/2)) 1 (fun _ => 0) (List.range 1) (fun _ _ => fin 7)) := by
    unfold zinmProb
    rw [if_neg (by norm_num), if_neg]
    rintro ⟨i, hi, j, hj, h⟩
    rw [lt_fin_fin] at h
    norm_num at h
  exact c9_zero_row_emission 1 1 1 (fun _ _ => 0) 2 (1/2)
    (fun _ _ => fin (1/2)) (fun _ => 1/2) (fun _ => 0) 1 (fun _ _ => fin 7) _ 0 0
    hrun (by norm_num) (by norm_num) (by norm_num)
    (fun _ _ => rfl) (fun _ _ => rfl)
    (by norm_num [Finset.sum_range_succ])
    (by norm_num) (by norm_num) (by norm_num) (by norm_num)

/- Concrete run of the emission update of `bw_zinm` for claim C2:
`r = 2` tracks, `n = 1` position with counts `y[0] = (1, 4)`, no
all-zero row (`i0` matches no position), `phi = 1`, `a = 2`,
`pi = 3/10`, `R = 1` (so `C = 1 + R = 2`). -/

/-- C2 data: the single observation row `(1, 4)`. -/
def yC2 : ℕ → ℕ → ℤ := fun _ j => if j = 0 then 1 else 4

/-- C2 data: `phi = 1` everywhere. -/
def phiC2 : ℕ → ℕ → D := fun _ _ => fin 1

/-- The scalar function `f` of the C2 run. -/
def fC2 : D → D := bwF 2 1 yC2 (fun _ => 0) none (fin 2) (fin (3/10)) (fin 1) phiC2 0

/-- The derivative `dfdp0` of the C2 run. -/
def dfC2 : D → D := bwDf 2 1 yC2 (fun _ => 0) none (fin 2) (fin (3/10)) (fin 1) phiC2 0

theorem emisC2_A : (emisConsts 2 1 yC2 (fun _ => 0) none phiC2 0).A = fin 1 := by
  show (fin 0 + fin 1 : D) = fin 1
  rw [fin_add_fin]
  congr 1
  norm_num

theorem emisC2_B : (emisConsts 2 1 yC2 (fun _ => 0) none phiC2 0).B = fin 0 := rfl

theorem emisC2_D : (emisConsts 2 1 yC2 (fun _ => 0) none phiC2 0).Dv = fin 1 := by
  show (fin 0 + fin 1 * fin ((yC2 0 0 : ℝ)) : D) = fin 1
  rw [show ((yC2 0 0 : ℝ)) = 1 from by norm_num [yC2], fin_mul_fin, fin_add_fin]
  congr 1
  norm_num

theorem emisC2_ys1 :
    (emisConsts 2 1 yC2 (fun _ => 0) none phiC2 0).ystar 1 = fin 4 := by
  show (if 1 ≤ 1 ∧ 1 < 2 then (fin 0 : D) + fin 1 * fin ((yC2 0 1 : ℝ)) else fin 0)
    = fin 4
  rw [if_pos (by norm_num : 1 ≤ 1 ∧ 1 < 2),
    show ((yC2 0 1 : ℝ)) = 4 from by norm_num [yC2], fin_mul_fin, fin_add_fin]
  congr 1
  norm_num

theorem emisC2_E :
    emisE 2 (emisConsts 2 1 yC2 (fun _ => 0) none phiC2 0).ystar = fin 4 := by
  show (fin 0 : D) + (emisConsts 2 1 yC2 (fun _ => 0) none phiC2 0).ystar 1 = fin 4
  rw [emisC2_ys1, zero_add_d]

theorem zero_div_fin (y : ℝ) (hy : y ≠ 0) : (fin 0 : D) / fin y = fin 0 := by
  rw [fin_div_fin _ _ hy, zero_div]

/-- On positive arguments the C2 scalar function is
`f(x) = x + E/((D + a*A)/x) - 1/C = (7/3)*x - 1/2`. -/
theorem fC2_eval (x : ℝ) (hx : 0 < x) :
    fC2 (fin x) = fin (x + 4 / ((1 + 2 * 1) / x + 0) - 1 / (1 + 1)) := by
  have hx0 : x ≠ 0 := ne_of_gt hx
  have hp2 : (0:ℝ) < x ^ (2:ℝ) := Real.rpow_pos_of_pos hx 2
  have hden : ((3:ℝ)/10 * x ^ (2:ℝ) + 1 - 3/10) ≠ 0 := by nlinarith
  unfold fC2 bwF
  rw [emisC2_A, emisC2_B, emisC2_D, emisC2_E]
  unfold evalBwF
  simp only [fin_sub_fin, fin_mul_fin, fin_add_fin]
  rw [pow_fin_pos _ _ hx, pow_fin_pos _ _ hx]
  simp only [fin_mul_fin, fin_add_fin, fin_sub_fin]
  simp only [zero_mul]
  rw [fin_div_fin _ _ hx0, zero_div_fin _ hden]
  simp only [fin_add_fin]
  rw [fin_div_fin _ _ (by rw [add_zero]; exact div_ne_zero (by norm_num) hx0 :
      ((1:ℝ) + 2 * 1) / x + 0 ≠ 0),
    fin_div_fin _ _ (by norm_num : ((1:ℝ) + 1) ≠ 0)]
  simp only [fin_add_fin, fin_sub_fin]

/-- On positive arguments the C2 derivative is constant:
`dfdp0(x) = 1 + E*(D + a*A)/((D + a*A)/x)^2/x^2 = 7/3`. -/
theorem dfC2_eval (x : ℝ) (hx : 0 < x) : dfC2 (fin x) = fin (7/3) := by
  have hx0 : x ≠ 0 := ne_of_gt hx
  have hp2 : (0:ℝ) < x ^ (2:ℝ) := Real.rpow_pos_of_pos hx 2
  have hden : ((3:ℝ)/10 * x ^ (2:ℝ) + 1 - 3/10) ≠ 0 := by nlinarith
  have hden2 : ((3:ℝ)/10 * x ^ (2:ℝ) + 1 - 3/10) * ((3:ℝ)/10 * x ^ (2:ℝ) + 1 - 3/10)
      ≠ 0 := mul_ne_zero hden hden
  have hT : ((1:ℝ) + 2 * 1) / x + 0 ≠ 0 := by
    rw [add_zero]
    exact div_ne_zero (by norm_num) hx0
  unfold dfC2 bwDf
  rw [emisC2_A, emisC2_B, emisC2_D, emisC2_E]
  unfold evalBwDfdp0
  simp only [D.sq, fin_sub_fin, fin_mul_fin, fin_add_fin]
  rw [pow_fin_pos _ _ hx, pow_fin_pos _ _ hx, pow_fin_pos _ _ hx, pow_fin_pos _ _ hx]
  simp only [fin_mul_fin, fin_add_fin, fin_sub_fin]
  simp only [zero_mul]
  rw [fin_div_fin _ _ hx0, zero_div_fin _ hden]
  simp only [fin_add_fin]
  rw [zero_div_fin _ hden2, fin_div_fin _ _ (mul_ne_zero hx0 hx0)]
  simp only [fin_mul_fin, fin_sub_fin]
  rw [fin_div_fin _ _ (mul_ne_zero hT hT)]
  simp only [fin_mul_fin, fin_sub_fin]
  congr 1
  field_simp
  ring


/-- Bracketing of the C2 run: `f(1/2) > 0`, so the halving loop runs
`1/4 -> 1/8` and exits, giving `p0_lo = 1/8`, `p0_hi = 1/4`. -/
theorem bracketC2 :
    bwBracket 2 1 yC2 (fun _ => 0) none (fin 2) (fin (3/10)) (fin 1) phiC2 0
      = (fin (1/8), fin (1/4), fin (1/8)) := by
  have hf : bwF 2 1 yC2 (fun _ => 0) none (fin 2) (fin (3/10)) (fin 1) phiC2 0
      = fC2 := rfl
  have hpos : ¬ D.lt (fC2 (fin (1/2))) (fin 0) := by
    rw [fC2_eval _ (by norm_num), lt_fin_fin]
    norm_num
  have h14 : D.lt (fin 0) (fC2 (fin (1/4))) := by
    rw [fC2_eval _ (by norm_num), lt_fin_fin]
    norm_num
  have h18 : ¬ D.lt (fin 0) (fC2 (fin (1/8))) := by
    rw [fC2_eval _ (by norm_num), lt_fin_fin]
    norm_num
  have hdown : bracketDown fC2 bracketFuel (fin (1/4)) = fin (1/8) := by
    rw [show bracketFuel = 9999 + 1 from rfl, bracketDown_step fC2 9999 _ h14,
      show (fin (1/4) : D) / fin 2 = fin (1/8) from by
        rw [fin_div_fin _ _ (by norm_num)]
        congr 1
        norm_num,
      show (9999 : ℕ) = 9998 + 1 from rfl, bracketDown_stop fC2 9998 _ h18]
  unfold bwBracket
  rw [hf, findBracket_pos fC2 hpos, hdown, fin_mul_fin,
    show ((1:ℝ)/8 * 2) = 1/4 from by norm_num]

/-- First Newton iteration of the C2 run: proposal `3/16` accepted,
`f(3/16) = -1/16 < 0` moves the lower bound, Newton step `3/14`. -/
theorem newtonC2_iter1 :
    newtonIter fC2 dfC2 ⟨fin (1/8), fin (1/4), fin (3/16), fin (1/8), false⟩
      = ⟨fin (3/16), fin (1/4), fin (3/14), fin (3/16), false⟩ := by
  have hp0 : newtonP0 (fin (1/8)) (fin (1/4)) (fin (3/16)) = fin (3/16) := by
    refine newtonP0_in _ _ _ ?_
    rintro (h | h) <;> (rw [lt_fin_fin] at h; norm_num at h)
  have hfneg : ¬ D.lt (fin 0) (fC2 (fin (3/16))) := by
    rw [fC2_eval _ (by norm_num), lt_fin_fin]
    norm_num
  have hbr : ¬ D.lt (fin (1/4) - fin (3/16)) (fin (1/1000000)) := by
    rw [fin_sub_fin, lt_fin_fin]
    norm_num
  rw [newtonIter_eval_le fC2 dfC2 _ _ _ _ _ hp0 hfneg hbr,
    fC2_eval _ (by norm_num), dfC2_eval _ (by norm_num),
    fin_div_fin _ _ (by norm_num : (7:ℝ)/3 ≠ 0), fin_sub_fin]
  congr 1
  norm_num

/-- Second Newton iteration of the C2 run: proposal `3/14` accepted,
`f(3/14) = 0` moves the lower bound, Newton step stays at `3/14`. -/
theorem newtonC2_iter2 :
    newtonIter fC2 dfC2 ⟨fin (3/16), fin (1/4), fin (3/14), fin (3/16), false⟩
      = ⟨fin (3/14), fin (1/4), fin (3/14), fin (3/14), false⟩ := by
  have hp0 : newtonP0 (fin (3/16)) (fin (1/4)) (fin (3/14)) = fin (3/14) := by
    refine newtonP0_in _ _ _ ?_
    rintro (h | h) <;> (rw [lt_fin_fin] at h; norm_num at h)
  have hfneg : ¬ D.lt (fin 0) (fC2 (fin (3/14))) := by
    rw [fC2_eval _ (by norm_num), lt_fin_fin]
    norm_num
  have hbr : ¬ D.lt (fin (1/4) - fin (3/14)) (fin (1/1000000)) := by
    rw [fin_sub_fin, lt_fin_fin]
    norm_num
  rw [newtonIter_eval_le fC2 dfC2 _ _ _ _ _ hp0 hfneg hbr,
    fC2_eval _ (by norm_num), dfC2_eval _ (by norm_num),
    fin_div_fin _ _ (by norm_num : (7:ℝ)/3 ≠ 0), fin_sub_fin]
  congr 1
  norm_num

/-- The state reached after two Newton iterations of the C2 run is a
fixed point of the iteration: the root `3/14` is exact and the bracket
width `1/4 - 3/14 = 1/28` stays above the tolerance. -/
theorem newtonC2_fix :
    newtonIter fC2 dfC2 ⟨fin (3/14), fin (1/4), fin (3/14), fin (3/14), false⟩
      = ⟨fin (3/14), fin (1/4), fin (3/14), fin (3/14), false⟩ := by
  have hp0 : newtonP0 (fin (3/14)) (fin (1/4)) (fin (3/14)) = fin (3/14) := by
    refine newtonP0_in _ _ _ ?_
    rintro (h | h) <;> (rw [lt_fin_fin] at h; norm_num at h)
  have hfneg : ¬ D.lt (fin 0) (fC2 (fin (3/14))) := by
    rw [fC2_eval _ (by norm_num), lt_fin_fin]
    norm_num
  have hbr : ¬ D.lt (fin (1/4) - fin (3/14)) (fin (1/1000000)) := by
    rw [fin_sub_fin, lt_fin_fin]
    norm_num
  rw [newtonIter_eval_le fC2 dfC2 _ _ _ _ _ hp0 hfneg hbr,
    fC2_eval _ (by norm_num), dfC2_eval _ (by norm_num),
    fin_div_fin _ _ (by norm_num : (7:ℝ)/3 ≠ 0), fin_sub_fin]
  congr 1
  norm_num

/-- The root found by the Newton loop of the C2 run is `p0 = 3/14`. -/
theorem bwP0C2 :
    bwP0 2 1 yC2 (fun _ => 0) none (fin 2) (fin (3/10)) (fin 1) phiC2 0
      = fin (3/14) := by
  have hf : bwF 2 1 yC2 (fun _ => 0) none (fin 2) (fin (3/10)) (fin 1) phiC2 0
      = fC2 := rfl
  have hdf : bwDf 2 1 yC2 (fun _ => 0) none (fin 2) (fin (3/10)) (fin 1) phiC2 0
      = dfC2 := rfl
  unfold bwP0
  rw [hf, hdf, bracketC2]
  show (newtonRun fC2 dfC2 25
    ⟨fin (1/8), fin (1/4), ((fin (1/8) : D) + fin (1/4)) / fin 2, fin (1/8), false⟩).cur
    = fin (3/14)
  rw [show ((fin (1/8) : D) + fin (1/4)) / fin 2 = fin (3/16) from by
      rw [fin_add_fin, fin_div_fin _ _ (by norm_num)]
      congr 1
      norm_num,
    show (25 : ℕ) = 24 + 1 from rfl, newtonRun_step, newtonC2_iter1,
    show (24 : ℕ) = 23 + 1 from rfl, newtonRun_step, newtonC2_iter2,
    newtonRun_fix fC2 dfC2 _ newtonC2_fix 23]

/-- The `term1 + term2` factor of the normalization constant of the C2
run, evaluated at the found root `p0 = 3/14`: the value is `14`. -/
theorem t12C2 :
    ((emisConsts 2 1 yC2 (fun _ => 0) none phiC2 0).Dv
        + fin 2 * (emisConsts 2 1 yC2 (fun _ => 0) none phiC2 0).A)
          / bwP0 2 1 yC2 (fun _ => 0) none (fin 2) (fin (3/10)) (fin 1) phiC2 0
      + (emisConsts 2 1 yC2 (fun _ => 0) none phiC2 0).B * fin (3/10) * fin 2
          * D.pow (bwP0 2 1 yC2 (fun _ => 0) none (fin 2) (fin (3/10)) (fin 1) phiC2 0)
            (fin 2 - fin 1)
        / (fin (3/10)
            * D.pow (bwP0 2 1 yC2 (fun _ => 0) none (fin 2) (fin (3/10)) (fin 1) phiC2 0)
              (fin 2)
          + fin 1 - fin (3/10))
    = fin 14 := by
  have hp2 : (0:ℝ) < ((3:ℝ)/14) ^ (2:ℝ) := Real.rpow_pos_of_pos (by norm_num) 2
  have hden : ((3:ℝ)/10 * ((3:ℝ)/14) ^ (2:ℝ) + 1 - 3/10) ≠ 0 := by nlinarith
  rw [bwP0C2, emisC2_A, emisC2_B, emisC2_D]
  simp only [fin_sub_fin, fin_mul_fin, fin_add_fin]
  rw [pow_fin_pos _ _ (by norm_num : (0:ℝ) < 3/14),
    pow_fin_pos _ _ (by norm_num : (0:ℝ) < 3/14)]
  simp only [fin_mul_fin, fin_add_fin, fin_sub_fin]
  simp only [zero_mul]
  rw [fin_div_fin _ _ (by norm_num : ((3:ℝ)/14) ≠ 0), zero_div_fin _ hden]
  simp only [fin_add_fin]
  congr 1
  norm_num

/-- The normalization constant of the C2 run:
`normconst = (term1 + term2)/C = 14/2 = 7`. -/
theorem normC2 :
    bwNormconst 2 1 yC2 (fun _ => 0) none (fin 2) (fin (3/10)) (fin 1) phiC2 0
      = fin 7 := by
  unfold bwNormconst
  rw [t12C2, fin_add_fin, fin_div_fin _ _ (by norm_num : ((1:ℝ) + 1) ≠ 0)]
  congr 1
  norm_num

/-- The C2 run does not hit the bracketing failure, so the emission
update returns the new row. -/
theorem c2_some :
    bwEmisUpdate 2 1 yC2 (fun _ => 0) none (fin 2) (fin (3/10)) (fin 1) phiC2 0
      = some (bwP0 2 1 yC2 (fun _ => 0) none (fin 2) (fin (3/10)) (fin 1) phiC2 0,
          bwRow 2 1 yC2 (fun _ => 0) none (fin 2) (fin (3/10)) (fin 1) phiC2 0) := by
  have h1 : (bwBracket 2 1 yC2 (fun _ => 0) none (fin 2) (fin (3/10)) (fin 1)
      phiC2 0).1 = fin (1/8) := by rw [bracketC2]
  have h2 : (bwBracket 2 1 yC2 (fun _ => 0) none (fin 2) (fin (3/10)) (fin 1)
      phiC2 0).2.1 = fin (1/4) := by rw [bracketC2]
  unfold bwEmisUpdate
  rw [if_neg]
  rintro (h | h)
  · rw [h1, lt_fin_fin] at h
    norm_num at h
  · rw [h2, lt_fin_fin] at h
    norm_num at h

/-- Slot `2` of the new emission row of the C2 run:
`ystar[1] / normconst = 4/7`. -/
theorem c2_row2 :
    bwRow 2 1 yC2 (fun _ => 0) none (fin 2) (fin (3/10)) (fin 1) phiC2 0 2
      = fin (4/7) := by
  simp only [bwRow]
  rw [if_neg (by norm_num : ¬ (2:ℕ) = 0), if_neg (by norm_num : ¬ (2:ℕ) = 1),
    if_pos (by norm_num : (2:ℕ) ≤ 2),
    show (2 - 1 : ℕ) = 1 from rfl, emisC2_ys1, normC2,
    fin_div_fin _ _ (by norm_num : (7:ℝ) ≠ 0)]

/-- C2: in the Baum-Welch emission update, for every state `i` and every
slot `j >= 2` of the new parameter row, whenever the update succeeds and
the constants `ystar[j-1]`, `term1 + term2` and `C = 1 + R` are the
finite reals `ysv`, `t12v` and `Cv` (with `t12v, Cv` nonzero), the
written value is `ystar[j-1] / (term1 + term2) * C` -- the code divides
by `normconst = (term1 + term2)/C`, so the factor is `C`, NOT the `1/C`
stated in the claim (see `c2_counterexample`). -/
theorem c2_emission_update (r n : ℕ) (y : ℕ → ℕ → ℤ) (index : ℕ → ℕ)
    (i0 : Option ℕ) (a pw R : D) (phi : ℕ → ℕ → D) (i j : ℕ)
    (p0 : D) (row : ℕ → D)
    (hrun : bwEmisUpdate r n y index i0 a pw R phi i = some (p0, row))
    (hj : 2 ≤ j) (hjr : j ≤ r)
    (ysv t12v Cv : ℝ)
    (hys : (emisConsts r n y index i0 phi i).ystar (j - 1) = fin ysv)
    (hC : (fin 1 : D) + R = fin Cv) (hCv : Cv ≠ 0)
    (ht12 : ((emisConsts r n y index i0 phi i).Dv
          + a * (emisConsts r n y index i0 phi i).A)
            / bwP0 r n y index i0 a pw R phi i
        + (emisConsts r n y index i0 phi i).B * pw * a
            * D.pow (bwP0 r n y index i0 a pw R phi i) (a - fin 1)
          / (pw * D.pow (bwP0 r n y index i0 a pw R phi i) a + fin 1 - pw)
        = fin t12v)
    (ht12v : t12v ≠ 0) :
    row j = fin (ysv * Cv / t12v) := by
  unfold bwEmisUpdate at hrun
  split_ifs at hrun
  rw [Option.some.injEq, Prod.mk.injEq] at hrun
  obtain ⟨hp0, hrow⟩ := hrun
  subst hrow
  have hj0 : ¬ j = 0 := by omega
  have hj1 : ¬ j = 1 := by omega
  simp only [bwRow]
  rw [if_neg hj0, if_neg hj1, if_pos hjr]
  unfold bwNormconst
  rw [ht12, hC, hys, fin_div_fin _ _ hCv,
    fin_div_fin _ _ (div_ne_zero ht12v hCv), div_div_eq_mul_div]

/-- Witness for C2: the concrete run (`r = 2`, `n = 1`, `y = (1,4)`,
`phi = 1`, `a = 2`, `pi = 3/10`, `R = 1`) succeeds with `p0 = 3/14`,
`ystar[1] = 4`, `term1 + term2 = 14`, `C = 2`, and slot `2` of the new
row is `4 * 2 / 14 = 4/7`. -/
theorem c2_emission_update_witness :
    bwRow 2 1 yC2 (fun _ => 0) none (fin 2) (fin (3/10)) (fin 1) phiC2 0 2
      = fin (4 * 2 / 14) :=
  c2_emission_update 2 1 yC2 (fun _ => 0) none (fin 2) (fin (3/10)) (fin 1)
    phiC2 0 2 _ _ c2_some (by norm_num) (by norm_num) 4 14 2
    emisC2_ys1
    (by rw [fin_add_fin]; congr 1; norm_num)
    (by norm_num) t12C2 (by norm_num)

/-- Counterexample for C2 as stated: in the same concrete run the
claim's formula `ystar / (term1 + term2) * (1/C) = 4/14 * (1/2) = 1/7`
differs from the value `4/7` actually written in slot `2`. -/
theorem c2_counterexample :
    ∃ row : ℕ → D,
      bwEmisUpdate 2 1 yC2 (fun _ => 0) none (fin 2) (fin (3/10)) (fin 1) phiC2 0
        = some (bwP0 2 1 yC2 (fun _ => 0) none (fin 2) (fin (3/10)) (fin 1) phiC2 0,
            row)
      ∧ row 2 ≠ fin (4 / 14 * (1 / 2)) := by
  refine ⟨bwRow 2 1 yC2 (fun _ => 0) none (fin 2) (fin (3/10)) (fin 1) phiC2 0,
    c2_some, ?_⟩
  rw [c2_row2]
  intro h
  injection h with h
  norm_num at h

/- Concrete run of one Baum-Welch iteration of `bw_zinm` for claim C4:
`m = 1` state, `r = 1` track, `n = 1` position with count `y[0] = 5`,
one block (`size = [1]`), `Q = 1/2`, `p = (1, -3/5)` (so the fixed ratio
is `R = p[1]/p[0] = -3/5` and `C = 1 + R = 2/5`), `a = 2`, `pi = 3/10`.
The negative entry `p[1]` makes `zinm_prob` abort, leaving the previous
emission matrix `pem` (all NaN) in place, so the forward pass treats the
position as missing.  The emission update then solves
`f(x) = x - 1/C = x - 5/2`, whose doubling loop exits at `p0 = 4` with
`p0_lo = 2 > 1`: the bracketing failure fires. -/

/-- C4 data: the single count `y[0] = 5`. -/
def yC4 : ℕ → ℕ → ℤ := fun _ _ => 5

/-- C4 data: parameter row `p = (1, -3/5)`. -/
def pC4 : ℕ → ℕ → D := fun _ j => if j = 0 then fin 1 else fin (-(3/5))

/-- C4 data: the previous emission matrix (all NaN). -/
def pemC4 : ℕ → ℕ → D := fun _ _ => nan

/-- C4 data: the previous transition matrix `Q = 1/2`. -/
def QC4 : ℕ → ℕ → D := fun _ _ => fin (1/2)

/-- In the C4 run `zinm_prob` aborts on the negative entry `p[1]`. -/
theorem zinmC4 :
    zinmProb 1 1 1 yC4 (fin 2) (fin (3/10)) pC4 (fun _ => 0) 4 pemC4 = none := by
  unfold zinmProb
  rw [if_neg (by norm_num : ¬ 4 % 4 = 3), if_pos]
  exact ⟨0, by norm_num, 1, by norm_num, by
    rw [show pC4 0 1 = fin (-(3/5)) from rfl, lt_fin_fin]
    norm_num⟩

/-- Hence the emission matrix used by the C4 iteration is the previous
one. -/
theorem pem1C4 :
    bwPem1 1 1 1 yC4 (fun _ => 0) (fin 2) (fin (3/10)) pC4 pemC4 = pemC4 := by
  unfold bwPem1
  rw [zinmC4]
  rfl

/-- The smoothed posteriors of the C4 run, as indexed by the emission
update. -/
def phiC4 : ℕ → ℕ → D :=
  fnOf (bwFb 1 1 1 [1] yC4 (fun _ => 0) (fin 2) (fin (3/10)) pC4 pemC4 QC4).phi

/-- In the C4 run the single position is missing (NaN emission row), so
`phi[0,0]` is the prediction `init[0] = 1/m = 1`. -/
theorem phiC4val : phiC4 0 0 = fin 1 := by
  unfold phiC4 bwFb
  rw [pem1C4]
  show (fwdStep 1 (pemC4 0) (uinit 1)).row 0 = fin 1
  unfold fwdStep
  rw [if_pos (⟨0, by norm_num, rfl⟩ : ∃ j < 1, pemC4 0 j = nan)]
  show uinit 1 0 = fin 1
  unfold uinit
  rw [Nat.cast_one, fin_div_fin _ _ one_ne_zero]
  congr 1
  norm_num

theorem emisC4_A : (emisConsts 1 1 yC4 (fun _ => 0) none phiC4 0).A = fin 1 := by
  show (fin 0 : D) + phiC4 0 0 = fin 1
  rw [phiC4val, zero_add_d]

theorem emisC4_B : (emisConsts 1 1 yC4 (fun _ => 0) none phiC4 0).B = fin 0 := rfl

theorem emisC4_D : (emisConsts 1 1 yC4 (fun _ => 0) none phiC4 0).Dv = fin 5 := by
  show (fin 0 : D) + phiC4 0 0 * fin ((yC4 0 0 : ℝ)) = fin 5
  rw [phiC4val, show ((yC4 0 0 : ℝ)) = 5 from by norm_num [yC4], fin_mul_fin,
    fin_add_fin]
  congr 1
  norm_num

theorem emisC4_E :
    emisE 1 (emisConsts 1 1 yC4 (fun _ => 0) none phiC4 0).ystar = fin 0 := rfl

/-- The scalar function `f` of the C4 run. -/
def fC4 : D → D :=
  bwF 1 1 yC4 (fun _ => 0) none (fin 2) (fin (3/10)) (fin (-(3/5))) phiC4 0

/-- On positive arguments the C4 scalar function is
`f(x) = x + 0 - 1/C = x - 5/2`. -/
theorem fC4_eval (x : ℝ) (hx : 0 < x) :
    fC4 (fin x) = fin (x + 0 - 1 / (1 + -(3/5))) := by
  have hx0 : x ≠ 0 := ne_of_gt hx
  have hp2 : (0:ℝ) < x ^ (2:ℝ) := Real.rpow_pos_of_pos hx 2
  have hden : ((3:ℝ)/10 * x ^ (2:ℝ) + 1 - 3/10) ≠ 0 := by nlinarith
  have hT : ((5:ℝ) + 2 * 1) / x + 0 ≠ 0 := by
    rw [add_zero]
    exact div_ne_zero (by norm_num) hx0
  unfold fC4 bwF
  rw [emisC4_A, emisC4_B, emisC4_D, emisC4_E]
  unfold evalBwF
  simp only [fin_sub_fin, fin_mul_fin, fin_add_fin]
  rw [pow_fin_pos _ _ hx, pow_fin_pos _ _ hx]
  simp only [fin_mul_fin, fin_add_fin, fin_sub_fin]
  simp only [zero_mul]
  rw [fin_div_fin _ _ hx0, zero_div_fin _ hden]
  simp only [fin_add_fin]
  rw [zero_div_fin _ hT, fin_div_fin _ _ (by norm_num : ((1:ℝ) + -(3/5)) ≠ 0)]
  simp only [fin_add_fin, fin_sub_fin]

/-- Bracketing of the C4 run: `f(1/2) = -2 < 0`, so the doubling loop
runs `1 -> 2 -> 4` and exits, giving `p0_lo = 2`, `p0_hi = 4`. -/
theorem bracketC4 :
    bwBracket 1 1 yC4 (fun _ => 0) none (fin 2) (fin (3/10)) (fin (-(3/5))) phiC4 0
      = (fin 2, fin 4, fin 4) := by
  have hf : bwF 1 1 yC4 (fun _ => 0) none (fin 2) (fin (3/10)) (fin (-(3/5))) phiC4 0
      = fC4 := rfl
  have hneg : D.lt (fC4 (fin (1/2))) (fin 0) := by
    rw [fC4_eval _ (by norm_num), lt_fin_fin]
    norm_num
  have h1 : D.lt (fC4 (fin 1)) (fin 0) := by
    rw [fC4_eval _ (by norm_num), lt_fin_fin]
    norm_num
  have h2 : D.lt (fC4 (fin 2)) (fin 0) := by
    rw [fC4_eval _ (by norm_num), lt_fin_fin]
    norm_num
  have h4 : ¬ D.lt (fC4 (fin 4)) (fin 0) := by
    rw [fC4_eval _ (by norm_num), lt_fin_fin]
    norm_num
  have hup : bracketUp fC4 bracketFuel (fin 1) = fin 4 := by
    rw [show bracketFuel = 9999 + 1 from rfl, bracketUp_step fC4 9999 _ h1,
      show (fin 1 : D) * fin 2 = fin 2 from by
        rw [fin_mul_fin]
        congr 1
        norm_num,
      show (9999 : ℕ) = 9998 + 1 from rfl, bracketUp_step fC4 9998 _ h2,
      show (fin 2 : D) * fin 2 = fin 4 from by
        rw [fin_mul_fin]
        congr 1
        norm_num,
      show (9998 : ℕ) = 9997 + 1 from rfl, bracketUp_stop fC4 9997 _ h4]
  unfold bwBracket
  rw [hf, findBracket_neg fC4 hneg, hup,
    show (fin 4 : D) / fin 2 = fin 2 from by
      rw [fin_div_fin _ _ (by norm_num)]
      congr 1
      norm_num]

/-- The C4 run hits the bracketing failure test: `p0_lo = 2 > 1`. -/
theorem failC4 :
    bwEmisUpdate 1 1 yC4 (fun _ => 0) none (fin 2) (fin (3/10)) (fin (-(3/5))) phiC4 0
      = none := by
  have h1 : (bwBracket 1 1 yC4 (fun _ => 0) none (fin 2) (fin (3/10)) (fin (-(3/5)))
      phiC4 0).1 = fin 2 := by rw [bracketC4]
  unfold bwEmisUpdate
  rw [if_pos (Or.inl (by rw [h1, lt_fin_fin]; norm_num))]

theorem bwStates_cons_none (r n : ℕ) (y : ℕ → ℕ → ℤ) (index : ℕ → ℕ)
    (i0 : Option ℕ) (a pw R : D) (phi : ℕ → ℕ → D) (i : ℕ) (rest : List ℕ)
    (newp : ℕ → ℕ → D)
    (h : bwEmisUpdate r n y index i0 a pw R phi i = none) :
    bwStates r n y index i0 a pw R phi (i :: rest) newp = none := by
  show (match bwEmisUpdate r n y index i0 a pw R phi i with
    | none => none
    | some u => bwStates r n y index i0 a pw R phi rest
        (fun i2 j => if i2 = i then u.2 j else newp i2 j)) = none
  rw [h]

theorem bwStates_cons_some (r n : ℕ) (y : ℕ → ℕ → ℤ) (index : ℕ → ℕ)
    (i0 : Option ℕ) (a pw R : D) (phi : ℕ → ℕ → D) (i : ℕ) (rest : List ℕ)
    (newp : ℕ → ℕ → D) (u : D × (ℕ → D))
    (h : bwEmisUpdate r n y index i0 a pw R phi i = some u) :
    bwStates r n y index i0 a pw R phi (i :: rest) newp
      = bwStates r n y index i0 a pw R phi rest
          (fun i2 j => if i2 = i then u.2 j else newp i2 j) := by
  show (match bwEmisUpdate r n y index i0 a pw R phi i with
    | none => none
    | some u => bwStates r n y index i0 a pw R phi rest
        (fun i2 j => if i2 = i then u.2 j else newp i2 j)) = _
  rw [h]

/-- The full C4 iteration takes the failure exit: the output has `Q`
overwritten by `update_trans`, `p` untouched, and `l` from this
iteration's completed `block_fwdb`. -/
theorem c4_run :
    bwZinmIter 1 1 [1] 1 yC4 (fun _ => 0) none (fin 2) (fin (3/10)) (fin (-(3/5)))
        QC4 pC4 pemC4 (fun _ _ => fin 0)
      = BwIterOut.fail
          (updateTrans 1 QC4
            (bwFb 1 1 1 [1] yC4 (fun _ => 0) (fin 2) (fin (3/10)) pC4 pemC4 QC4).T)
          pC4
          (bwFb 1 1 1 [1] yC4 (fun _ => 0) (fin 2) (fin (3/10)) pC4 pemC4 QC4).ll := by
  have hphi : fnOf (bwFb 1 1 1 [1] yC4 (fun _ => 0) (fin 2) (fin (3/10)) pC4 pemC4
      QC4).phi = phiC4 := rfl
  unfold bwZinmIter
  rw [hphi, show List.range 1 = [0] from rfl,
    bwStates_cons_none 1 1 yC4 (fun _ => 0) none (fin 2) (fin (3/10)) (fin (-(3/5)))
      phiC4 0 [] (fun _ _ => fin 0) failC4]

/-- C4 (amended): when the emission update's root finder fails to
bracket `p0` at any state `i < m`, the iteration takes the early-return
exit: the caller receives the log-likelihood of this iteration's
completed forward-backward pass, and `P` is not committed (the output
carries the unchanged `p`) — but `Q` IS committed: `update_trans` has
already overwritten it from this iteration's `T` before the failure is
detected (see `c4_counterexample`, where the overwritten `Q` even turns
NaN). -/
theorem c4_bracket_failure (m r : ℕ) (sizes : List ℕ) (n : ℕ)
    (y : ℕ → ℕ → ℤ) (index : ℕ → ℕ) (i0 : Option ℕ) (a pw R : D)
    (Q p pem newp0 : ℕ → ℕ → D) (i : ℕ) (hi : i < m)
    (hfail : bwEmisUpdate r n y index i0 a pw R
      (fnOf (bwFb m r n sizes y index a pw p pem Q).phi) i = none) :
    bwZinmIter m r sizes n y index i0 a pw R Q p pem newp0
      = BwIterOut.fail
          (updateTrans m Q (bwFb m r n sizes y index a pw p pem Q).T) p
          (bwFb m r n sizes y index a pw p pem Q).ll := by
  have hnone : ∀ l : List ℕ, i ∈ l → ∀ np : ℕ → ℕ → D,
      bwStates r n y index i0 a pw R
        (fnOf (bwFb m r n sizes y index a pw p pem Q).phi) l np = none := by
    intro l
    induction l with
    | nil => exact fun h _ => absurd h (List.not_mem_nil i)
    | cons hd tl ih =>
        intro hmem np
        cases hu : bwEmisUpdate r n y index i0 a pw R
            (fnOf (bwFb m r n sizes y index a pw p pem Q).phi) hd with
        | none => exact bwStates_cons_none _ _ _ _ _ _ _ _ _ _ _ _ hu
        | some u =>
            have hne : hd ≠ i := by
              rintro rfl
              rw [hfail] at hu
              exact Option.noConfusion hu
            have hmem' : i ∈ tl := by
              rcases List.mem_cons.mp hmem with h | h
              · exact absurd h.symm hne
              · exact h
            rw [bwStates_cons_some _ _ _ _ _ _ _ _ _ _ _ _ _ hu]
            exact ih hmem' _
  unfold bwZinmIter
  rw [hnone (List.range m) (List.mem_range.mpr hi) newp0]

/-- Witness for C4: the concrete failing run (`m = r = n = 1`,
`y = 5`, `p = (1, -3/5)`, `Q = 1/2`, `a = 2`, `pi = 3/10`) ends in the
failure exit with `p` untouched. -/
theorem c4_bracket_failure_witness :
    bwZinmIter 1 1 [1] 1 yC4 (fun _ => 0) none (fin 2) (fin (3/10)) (fin (-(3/5)))
        QC4 pC4 pemC4 (fun _ _ => fin 0)
      = BwIterOut.fail
          (updateTrans 1 QC4
            (bwFb 1 1 1 [1] yC4 (fun _ => 0) (fin 2) (fin (3/10)) pC4 pemC4 QC4).T)
          pC4
          (bwFb 1 1 1 [1] yC4 (fun _ => 0) (fin 2) (fin (3/10)) pC4 pemC4 QC4).ll :=
  c4_bracket_failure 1 1 [1] 1 yC4 (fun _ => 0) none (fin 2) (fin (3/10))
    (fin (-(3/5))) QC4 pC4 pemC4 (fun _ _ => fin 0) 0 (by norm_num) failC4

/-- Counterexample for C4 as stated: in the same failing run the
returned transition matrix is NOT the previous `Q`.  `update_trans` ran
before the abort, and here (missing observation, zero accumulated `T`)
it even replaces the previous entry `1/2` by `0/0 = NaN`. -/
theorem c4_counterexample :
    ∃ (Qf : ℕ → ℕ → D) (lf : D),
      bwZinmIter 1 1 [1] 1 yC4 (fun _ => 0) none (fin 2) (fin (3/10)) (fin (-(3/5)))
          QC4 pC4 pemC4 (fun _ _ => fin 0)
        = BwIterOut.fail Qf pC4 lf
      ∧ Qf 0 0 = nan ∧ QC4 0 0 = fin (1/2) := by
  have hT00 : (bwFb 1 1 1 [1] yC4 (fun _ => 0) (fin 2) (fin (3/10)) pC4 pemC4
      QC4).T 0 0 = fin 0 := by
    show (fin 0 : D) + fin 0 = fin 0
    rw [fin_add_fin]
    congr 1
    norm_num
  have hds : dSum (fun jj => (bwFb 1 1 1 [1] yC4 (fun _ => 0) (fin 2) (fin (3/10))
      pC4 pemC4 QC4).T 0 jj) 1 = fin 0 := by
    show (fin 0 : D) + (bwFb 1 1 1 [1] yC4 (fun _ => 0) (fin 2) (fin (3/10)) pC4
      pemC4 QC4).T 0 0 = fin 0
    rw [hT00, fin_add_fin]
    congr 1
    norm_num
  refine ⟨updateTrans 1 QC4
      (bwFb 1 1 1 [1] yC4 (fun _ => 0) (fin 2) (fin (3/10)) pC4 pemC4 QC4).T,
    (bwFb 1 1 1 [1] yC4 (fun _ => 0) (fin 2) (fin (3/10)) pC4 pemC4 QC4).ll,
    c4_run, ?_, rfl⟩
  unfold updateTrans
  rw [if_pos (by norm_num : (0:ℕ) < 1 ∧ (0:ℕ) < 1), hT00, hds, fin_div_zero_zero]

end Zerone
